import Mathlib

/-
Verification of the scheduler repository's schedule data model, its
cross-field validator (src/unnamed/part_003) and the primitive value
validators (src/src/schemas/schedule.ts and src/unnamed/part_003 agree on
these), together with a model of the occurrence-expansion engine described
in the specification.
-/

set_option maxHeartbeats 1000000
set_option synthInstance.maxHeartbeats 400000

namespace Scheduler

/-! Primitive value validators.  The zod validators IsoDate, IsoTime and
IanaTZ (identical in src/src/schemas/schedule.ts lines 6-23 and
src/unnamed/part_003 lines 6-23) are anchored regular expressions; they are
embedded as executable matchers over the string's character list. -/

/-- Match exactly `n` decimal digits (regex `\d` repeated `n` times),
returning the unconsumed rest of the input on success. -/
def matchDigits : Nat → List Char → Option (List Char)
  | 0, l => some l
  | _ + 1, [] => none
  | n + 1, c :: l => if c.isDigit then matchDigits n l else none

/-- Match one literal character, returning the unconsumed rest. -/
def matchLit (c : Char) : List Char → Option (List Char)
  | [] => none
  | c2 :: l => if c2 == c then some l else none

/-- The zod validator `IsoDate`: the anchored regex `\d\d\d\d-\d\d-\d\d`
(written in the source as `^\d{4}-\d{2}-\d{2}$`). -/
def IsoDate (s : String) : Bool :=
  ((((matchDigits 4 s.data).bind (matchLit '-')).bind
      (matchDigits 2)).bind (matchLit '-')).bind (matchDigits 2)
    == some ([] : List Char)

/-- The zod validator `IsoTime`: the anchored regex for `HH:MM:SS`
(`^\d{2}:\d{2}:\d{2}$` in the source). -/
def IsoTime (s : String) : Bool :=
  ((((matchDigits 2 s.data).bind (matchLit ':')).bind
      (matchDigits 2)).bind (matchLit ':')).bind (matchDigits 2)
    == some ([] : List Char)

theorem length_dropWhile_le' (p : Char → Bool) (l : List Char) :
    (l.dropWhile p).length ≤ l.length := by
  induction l with
  | nil => simp [List.dropWhile]
  | cons c l ih =>
    simp only [List.dropWhile]
    cases p c <;> simp <;> omega

/-- Character class `[A-Za-z_]` of the IanaTZ regex's first segment. -/
def areaChar (c : Char) : Bool := c.isAlpha || c == '_'

/-- Character class `[A-Za-z0-9_\-+]` of the IanaTZ regex's later segments. -/
def locChar (c : Char) : Bool := c.isAlphanum || c == '_' || c == '-' || c == '+'

/-- Match the tail `(\/[A-Za-z0-9_\-+]+)+` of the IanaTZ regex: one or more
groups, each a slash followed by one or more location characters.  Greedy
consumption is equivalent to the regex because no segment character is a
slash.  The first argument is fuel bounding the recursion depth; every
call site passes at least the input's length, which always suffices since
each group consumes at least one character. -/
def tzTailF : Nat → List Char → Bool
  | _, [] => false
  | 0, _ :: _ => false
  | fuel + 1, c :: rest =>
    if c == '/' then
      let seg := rest.takeWhile locChar
      let rem := rest.dropWhile locChar
      !seg.isEmpty && (rem.isEmpty || tzTailF fuel rem)
    else false

/-- The zod validator `IanaTZ`: `min(1)` plus the anchored regex
`^[A-Za-z_]+(?:\/[A-Za-z0-9_\-+]+)+$`. -/
def IanaTZ (s : String) : Bool :=
  !(s.data.takeWhile areaChar).isEmpty &&
    tzTailF (s.data.dropWhile areaChar).length (s.data.dropWhile areaChar)

/-! Specification-side shape predicates for the three literal formats
(spec section 4.1): used only to state the characterization of the
validators, never by the embedded code itself. -/

/-- Strict `YYYY-MM-DD` shape: four digits, a dash, two digits, a dash,
two digits, and nothing else. -/
def DateShape (s : String) : Prop :=
  ∃ y m d : List Char,
    y.length = 4 ∧ m.length = 2 ∧ d.length = 2 ∧
    (∀ c ∈ y, c.isDigit = true) ∧ (∀ c ∈ m, c.isDigit = true) ∧
    (∀ c ∈ d, c.isDigit = true) ∧
    s.data = y ++ '-' :: (m ++ '-' :: d)

/-- Strict `HH:MM:SS` shape: two digits, a colon, two digits, a colon, two
digits, and nothing else — seconds required, no fractional part, no
timezone suffix. -/
def TimeShape (s : String) : Prop :=
  ∃ h m sec : List Char,
    h.length = 2 ∧ m.length = 2 ∧ sec.length = 2 ∧
    (∀ c ∈ h, c.isDigit = true) ∧ (∀ c ∈ m, c.isDigit = true) ∧
    (∀ c ∈ sec, c.isDigit = true) ∧
    s.data = h ++ ':' :: (m ++ ':' :: sec)

/-- IANA timezone shape: a non-empty area name over `[A-Za-z_]` followed by
one or more `/Location` segments, each non-empty over `[A-Za-z0-9_\-+]`. -/
def TZShape (s : String) : Prop :=
  ∃ area : List Char, ∃ segs : List (List Char),
    area ≠ [] ∧ (∀ c ∈ area, areaChar c = true) ∧ segs ≠ [] ∧
    (∀ seg ∈ segs, seg ≠ [] ∧ ∀ c ∈ seg, locChar c = true) ∧
    s.data = area ++ (segs.map (fun seg => '/' :: seg)).flatten

theorem matchDigits_eq_some (n : Nat) (l r : List Char) :
    matchDigits n l = some r ↔
      ∃ ds : List Char, ds.length = n ∧ (∀ c ∈ ds, c.isDigit = true) ∧
        l = ds ++ r := by
  induction n generalizing l with
  | zero =>
    simp only [matchDigits, Option.some_inj, List.length_eq_zero]
    constructor
    · rintro rfl; exact ⟨[], rfl, by simp, rfl⟩
    · rintro ⟨ds, rfl, _, rfl⟩; simp
  | succ n ih =>
    cases l with
    | nil =>
      simp only [matchDigits]
      constructor
      · intro h; exact absurd h (by simp)
      · rintro ⟨ds, hlen, _, heq⟩
        have hds : ds = [] := (List.append_eq_nil.mp heq.symm).1
        subst hds; simp at hlen
    | cons c l =>
      simp only [matchDigits]
      by_cases hc : c.isDigit
      · simp only [hc, if_true, ih]
        constructor
        · rintro ⟨ds, hlen, hdig, rfl⟩
          exact ⟨c :: ds, by simp [hlen], by
            intro x hx; rcases List.mem_cons.1 hx with rfl | hx
            · exact hc
            · exact hdig x hx, rfl⟩
        · rintro ⟨ds, hlen, hdig, heq⟩
          cases ds with
          | nil => simp at hlen
          | cons d ds =>
            simp only [List.cons_append, List.cons.injEq] at heq
            obtain ⟨rfl, rfl⟩ := heq
            exact ⟨ds, by simpa using hlen, fun x hx => hdig x (List.mem_cons_of_mem _ hx), rfl⟩
      · simp only [hc, if_false]
        constructor
        · intro h; exact absurd h (by simp)
        · rintro ⟨ds, hlen, hdig, heq⟩
          cases ds with
          | nil => simp at hlen
          | cons d ds =>
            simp only [List.cons_append, List.cons.injEq] at heq
            exact absurd (heq.1 ▸ hdig d (by simp)) hc

theorem matchLit_eq_some (c : Char) (l r : List Char) :
    matchLit c l = some r ↔ l = c :: r := by
  cases l with
  | nil => simp [matchLit]
  | cons c2 l =>
    simp only [matchLit]
    by_cases h : c2 = c
    · subst h; simp
    · simp [h]

theorem IsoDate_iff_DateShape (s : String) : IsoDate s = true ↔ DateShape s := by
  unfold IsoDate DateShape
  rw [beq_iff_eq]
  constructor
  · intro h
    obtain ⟨r4, hJ, h5⟩ := Option.bind_eq_some.mp h
    obtain ⟨r3, hK, h4⟩ := Option.bind_eq_some.mp hJ
    obtain ⟨r2, hL, h3⟩ := Option.bind_eq_some.mp hK
    obtain ⟨r1, h1, h2⟩ := Option.bind_eq_some.mp hL
    obtain ⟨y, hy4, hyd, hsl⟩ := (matchDigits_eq_some _ _ _).mp h1
    rw [matchLit_eq_some] at h2
    obtain ⟨m, hm2, hmd, hr2⟩ := (matchDigits_eq_some _ _ _).mp h3
    rw [matchLit_eq_some] at h4
    obtain ⟨d, hd2, hdd, hr4⟩ := (matchDigits_eq_some _ _ _).mp h5
    refine ⟨y, m, d, hy4, hm2, hd2, hyd, hmd, hdd, ?_⟩
    rw [hsl, h2, hr2, h4, hr4]
    simp
  · rintro ⟨y, m, d, hy4, hm2, hd2, hyd, hmd, hdd, hsl⟩
    have h1 : matchDigits 4 s.data = some ('-' :: (m ++ '-' :: d)) :=
      (matchDigits_eq_some _ _ _).mpr ⟨y, hy4, hyd, hsl⟩
    have h2 : matchLit '-' ('-' :: (m ++ '-' :: d)) = some (m ++ '-' :: d) :=
      (matchLit_eq_some _ _ _).mpr rfl
    have h3 : matchDigits 2 (m ++ '-' :: d) = some ('-' :: d) :=
      (matchDigits_eq_some _ _ _).mpr ⟨m, hm2, hmd, rfl⟩
    have h4 : matchLit '-' ('-' :: d) = some d := (matchLit_eq_some _ _ _).mpr rfl
    have h5 : matchDigits 2 d = some [] :=
      (matchDigits_eq_some _ _ _).mpr ⟨d, hd2, hdd, by simp⟩
    rw [h1, Option.some_bind, h2, Option.some_bind, h3, Option.some_bind, h4,
      Option.some_bind, h5]

theorem IsoTime_iff_TimeShape (s : String) : IsoTime s = true ↔ TimeShape s := by
  unfold IsoTime TimeShape
  rw [beq_iff_eq]
  constructor
  · intro h
    obtain ⟨r4, hJ, h5⟩ := Option.bind_eq_some.mp h
    obtain ⟨r3, hK, h4⟩ := Option.bind_eq_some.mp hJ
    obtain ⟨r2, hL, h3⟩ := Option.bind_eq_some.mp hK
    obtain ⟨r1, h1, h2⟩ := Option.bind_eq_some.mp hL
    obtain ⟨hh, hh2, hhd, hsl⟩ := (matchDigits_eq_some _ _ _).mp h1
    rw [matchLit_eq_some] at h2
    obtain ⟨m, hm2, hmd, hr2⟩ := (matchDigits_eq_some _ _ _).mp h3
    rw [matchLit_eq_some] at h4
    obtain ⟨sec, hs2, hsd, hr4⟩ := (matchDigits_eq_some _ _ _).mp h5
    refine ⟨hh, m, sec, hh2, hm2, hs2, hhd, hmd, hsd, ?_⟩
    rw [hsl, h2, hr2, h4, hr4]
    simp
  · rintro ⟨hh, m, sec, hh2, hm2, hs2, hhd, hmd, hsd, hsl⟩
    have h1 : matchDigits 2 s.data = some (':' :: (m ++ ':' :: sec)) :=
      (matchDigits_eq_some _ _ _).mpr ⟨hh, hh2, hhd, hsl⟩
    have h2 : matchLit ':' (':' :: (m ++ ':' :: sec)) = some (m ++ ':' :: sec) :=
      (matchLit_eq_some _ _ _).mpr rfl
    have h3 : matchDigits 2 (m ++ ':' :: sec) = some (':' :: sec) :=
      (matchDigits_eq_some _ _ _).mpr ⟨m, hm2, hmd, rfl⟩
    have h4 : matchLit ':' (':' :: sec) = some sec := (matchLit_eq_some _ _ _).mpr rfl
    have h5 : matchDigits 2 sec = some [] :=
      (matchDigits_eq_some _ _ _).mpr ⟨sec, hs2, hsd, by simp⟩
    rw [h1, Option.some_bind, h2, Option.some_bind, h3, Option.some_bind, h4,
      Option.some_bind, h5]

theorem takeWhile_append_of_all (p : Char → Bool) (a b : List Char)
    (ha : ∀ c ∈ a, p c = true) (hb : ∀ x ∈ b.head?, p x = false) :
    (a ++ b).takeWhile p = a ∧ (a ++ b).dropWhile p = b := by
  induction a with
  | nil =>
    simp only [List.nil_append]
    cases b with
    | nil => simp [List.takeWhile, List.dropWhile]
    | cons x xs =>
      have hx : p x = false := hb x (by simp)
      simp [List.takeWhile, List.dropWhile, hx]
  | cons c a ih =>
    have hc : p c = true := ha c (by simp)
    have ih2 := ih (fun x hx => ha x (List.mem_cons_of_mem _ hx))
    simp [List.takeWhile, List.dropWhile, hc, ih2.1, ih2.2]

theorem tzTail_iff_aux (n : Nat) : ∀ l : List Char, l.length ≤ n →
    (tzTailF n l = true ↔
      ∃ segs : List (List Char), segs ≠ [] ∧
        (∀ seg ∈ segs, seg ≠ [] ∧ ∀ c ∈ seg, locChar c = true) ∧
        l = (segs.map (fun seg => '/' :: seg)).flatten) := by
  induction n with
  | zero =>
    intro l hl
    have hl0 : l = [] := List.length_eq_zero.mp (Nat.le_zero.mp hl)
    subst hl0
    constructor
    · intro h; simp [tzTailF] at h
    · rintro ⟨segs, hne, _, heq⟩
      cases segs with
      | nil => exact absurd rfl hne
      | cons s ss => simp at heq
  | succ n ih =>
    intro l hl
    cases l with
    | nil =>
      constructor
      · intro h; simp [tzTailF] at h
      · rintro ⟨segs, hne, _, heq⟩
        cases segs with
        | nil => exact absurd rfl hne
        | cons s ss => simp at heq
    | cons c rest =>
      constructor
      · intro h
        rw [tzTailF] at h
        by_cases hc : c = '/'
        · subst hc
          simp only [beq_self_eq_true, if_true] at h
          rw [Bool.and_eq_true] at h
          obtain ⟨hseg, hrem⟩ := h
          have hsegne : rest.takeWhile locChar ≠ [] := by
            intro hcontra
            rw [hcontra] at hseg
            simp at hseg
          have hsplit : rest.takeWhile locChar ++ rest.dropWhile locChar = rest :=
            List.takeWhile_append_dropWhile locChar rest
          have hsegloc : ∀ x ∈ rest.takeWhile locChar, locChar x = true :=
            fun x hx => List.mem_takeWhile_imp hx
          rw [Bool.or_eq_true] at hrem
          rcases hrem with hremnil | hrec
          · have : rest.dropWhile locChar = [] := by
              cases hd : rest.dropWhile locChar
              · rfl
              · rw [hd] at hremnil; simp at hremnil
            refine ⟨[rest.takeWhile locChar], by simp, ?_, ?_⟩
            · intro seg hseg2
              rcases List.mem_singleton.mp hseg2 with rfl
              exact ⟨hsegne, hsegloc⟩
            · simp only [List.map_cons, List.map_nil, List.flatten_cons,
                List.flatten_nil, List.append_nil, List.cons.injEq, true_and]
              conv_lhs => rw [← hsplit]
              rw [this, List.append_nil]
          · have hlen : (rest.dropWhile locChar).length ≤ n := by
              have h1 := length_dropWhile_le' locChar rest
              simp only [List.length_cons] at hl
              omega
            obtain ⟨segs, hne, hprop, heq⟩ := (ih _ hlen).mp hrec
            refine ⟨rest.takeWhile locChar :: segs, by simp, ?_, ?_⟩
            · intro seg hseg2
              rcases List.mem_cons.mp hseg2 with rfl | hmem
              · exact ⟨hsegne, hsegloc⟩
              · exact hprop seg hmem
            · simp only [List.map_cons, List.flatten_cons, List.cons.injEq, true_and]
              conv_lhs => rw [← hsplit]
              rw [heq]
              simp
        · have : (c == '/') = false := by simpa using hc
          rw [this] at h
          simp at h
      · rintro ⟨segs, hne, hprop, heq⟩
        cases segs with
        | nil => exact absurd rfl hne
        | cons seg0 ss =>
          simp only [List.map_cons, List.flatten_cons, List.cons_append,
            List.cons.injEq] at heq
          obtain ⟨rfl, hrest⟩ := heq
          rw [tzTailF]
          simp only [beq_self_eq_true, if_true]
          have hseg0 := hprop seg0 (by simp)
          have hhead : ∀ x ∈ ((ss.map (fun seg => '/' :: seg)).flatten).head?,
              locChar x = false := by
            intro x hx
            cases ss with
            | nil => simp at hx
            | cons s1 ss1 =>
              simp only [List.map_cons, List.flatten_cons, List.cons_append,
                List.head?_cons, Option.mem_def, Option.some_inj] at hx
              subst hx
              decide
          have hsplit := takeWhile_append_of_all locChar seg0
            ((ss.map (fun seg => '/' :: seg)).flatten) hseg0.2 hhead
          rw [hrest, hsplit.1, hsplit.2]
          rw [Bool.and_eq_true]
          refine ⟨by simpa using hseg0.1, ?_⟩
          cases ss with
          | nil => simp
          | cons s1 ss1 =>
            rw [Bool.or_eq_true]
            refine Or.inr ?_
            have hlen : (((s1 :: ss1).map (fun seg => '/' :: seg)).flatten).length ≤ n := by
              have : rest.length ≤ n := by
                simp only [List.length_cons] at hl; omega
              rw [hrest] at this
              have h2 : seg0.length + (((s1 :: ss1).map
                  (fun seg => '/' :: seg)).flatten).length =
                  (seg0 ++ ((s1 :: ss1).map (fun seg => '/' :: seg)).flatten).length := by
                simp
              omega
            refine (ih _ hlen).mpr ⟨s1 :: ss1, by simp, ?_, rfl⟩
            intro seg hseg2
            exact hprop seg (List.mem_cons_of_mem _ hseg2)

theorem tzTail_iff (l : List Char) :
    tzTailF l.length l = true ↔
      ∃ segs : List (List Char), segs ≠ [] ∧
        (∀ seg ∈ segs, seg ≠ [] ∧ ∀ c ∈ seg, locChar c = true) ∧
        l = (segs.map (fun seg => '/' :: seg)).flatten :=
  tzTail_iff_aux l.length l le_rfl

theorem IanaTZ_iff_TZShape (s : String) : IanaTZ s = true ↔ TZShape s := by
  unfold IanaTZ TZShape
  constructor
  · intro h
    rw [Bool.and_eq_true] at h
    obtain ⟨harea, htail⟩ := h
    obtain ⟨segs, hne, hprop, heq⟩ := (tzTail_iff _).mp htail
    refine ⟨s.data.takeWhile areaChar, segs, ?_, ?_, hne, hprop, ?_⟩
    · intro hcontra; rw [hcontra] at harea; simp at harea
    · exact fun c hc => List.mem_takeWhile_imp hc
    · rw [← heq]
      exact (List.takeWhile_append_dropWhile areaChar s.data).symm
  · rintro ⟨area, segs, hane, haarea, hne, hprop, heq⟩
    have hhead : ∀ x ∈ ((segs.map (fun seg => '/' :: seg)).flatten).head?,
        areaChar x = false := by
      intro x hx
      cases segs with
      | nil => exact absurd rfl hne
      | cons s1 ss1 =>
        simp only [List.map_cons, List.flatten_cons, List.cons_append,
          List.head?_cons, Option.mem_def, Option.some_inj] at hx
        subst hx
        decide
    have hsplit := takeWhile_append_of_all areaChar area
      ((segs.map (fun seg => '/' :: seg)).flatten) haarea hhead
    rw [heq, hsplit.1, hsplit.2]
    rw [Bool.and_eq_true]
    refine ⟨by simpa using hane, ?_⟩
    exact (tzTail_iff _).mpr ⟨segs, hne, hprop, rfl⟩

theorem IanaTZ_no_slash_false (s : String) (h : ∀ c ∈ s.data, c ≠ '/') :
    IanaTZ s = false := by
  by_contra hcontra
  have htrue : IanaTZ s = true := by
    cases hiana : IanaTZ s
    · exact absurd hiana hcontra
    · rfl
  obtain ⟨area, segs, _, _, hne, _, heq⟩ := (IanaTZ_iff_TZShape s).mp htrue
  cases segs with
  | nil => exact absurd rfl hne
  | cons s1 ss1 =>
    refine h '/' ?_ rfl
    rw [heq]
    refine List.mem_append.mpr (Or.inr ?_)
    simp

/-! JavaScript string comparison.  The validator compares ISO date/time
strings with the JS relational operators, which order strings
lexicographically by UTF-16 code unit; on the ASCII strings involved this
is plain lexicographic character order. -/

/-- Strict lexicographic order on character lists. -/
def charListLt : List Char → List Char → Bool
  | [], [] => false
  | [], _ :: _ => true
  | _ :: _, [] => false
  | a :: as, b :: bs =>
    if a < b then true else if b < a then false else charListLt as bs

/-- JS `a < b` on strings. -/
def jsLt (a b : String) : Bool := charListLt a.data b.data

/-- JS `a <= b` on strings: the negation of `b < a`. -/
def jsLe (a b : String) : Bool := !jsLt b a

/-- The single-event datetime validator: the anchored regex
`^\d{4}-\d{2}-\d{2}T\d{2}:\d{2}:\d{2}$` of src/unnamed/part_003. -/
def IsoDateTime (s : String) : Bool :=
  ((((((((((matchDigits 4 s.data).bind (matchLit '-')).bind
      (matchDigits 2)).bind (matchLit '-')).bind (matchDigits 2)).bind
      (matchLit 'T')).bind (matchDigits 2)).bind (matchLit ':')).bind
      (matchDigits 2)).bind (matchLit ':')).bind (matchDigits 2)
    == some ([] : List Char)

/-! Data model of src/unnamed/part_003: weekdays, recurrence rules, series
registry, variant binding, schedule items and the schedule root.  The
`meta` fields (`z.record(z.string(), z.unknown())`) hold free-form data
that no validation or expansion logic ever reads; they are left out of the
embedding. -/

/-- Weekday codes MO TU WE TH FR SA SU (ISO 8601). -/
inductive Weekday
  | mo | tu | we | th | fr | sa | su
deriving DecidableEq

/-- The `freq` enum of the part_003 RecurrenceRule. -/
inductive Freq
  | daily | weekly | monthly | yearly
deriving DecidableEq

/-- An entry of `nthWeekdayOfMonth`; `nth` is one of 1, 2, 3, 4, -1. -/
structure NthWeekdayOfMonth where
  weekday : Weekday
  nth : Int
deriving DecidableEq

/-- The part_003 RecurrenceRule object (RRULE-like, simplified). -/
structure RecurrenceRule where
  freq : Freq
  interval : Option Int
  byWeekday : Option (List Weekday)
  byMonthday : Option (List Int)
  byMonth : Option (List Int)
  nthWeekdayOfMonth : Option (List NthWeekdayOfMonth)
deriving DecidableEq

/-- A per-date override: a cancellation marker or a partial patch. -/
inductive OccurrenceOverride
  | cancel
  | patch (start «end» title location description color : Option String)
      (tags : Option (List String))
deriving DecidableEq

/-- A series registry entry: shared metadata plus the allowed variants. -/
structure SeriesEntry where
  title : String
  description : Option String
  color : Option String
  location : Option String
  tags : List String
  variants : List String
deriving DecidableEq

/-- Variant metadata bound to a series. -/
structure VariantInfo where
  key : String
  name : Option String
  audienceId : Option String
  capacity : Option Int
deriving DecidableEq

/-- The shared base fields of both item kinds. -/
structure BaseItem where
  id : Option String
  title : Option String
  description : Option String
  location : Option String
  color : Option String
  tags : Option (List String)
  seriesId : Option String
  variant : Option VariantInfo
deriving DecidableEq

/-- A schedule item: the discriminated union of SingleEvent and
RecurringEvent.  Overrides are a record keyed by YYYY-MM-DD date,
embedded as an association list. -/
inductive ScheduleItem
  | single (base : BaseItem) (start «end» : String) (allDay : Option Bool)
  | recurring (base : BaseItem) («on» : RecurrenceRule) (startTime endTime : String)
      (startOn endOn : Option String) (exclude : List String)
      (overrides : Option (List (String × OccurrenceOverride)))
deriving DecidableEq

/-- The base fields of an item, regardless of its kind. -/
def ScheduleItem.base : ScheduleItem → BaseItem
  | .single b _ _ _ => b
  | .recurring b _ _ _ _ _ _ _ => b

/-- The part_003 Schedule root.  The series registry
(`z.record(z.string(), SeriesEntry)`) is embedded as an association
list. -/
structure Schedule where
  id : Option String
  timeZone : String
  termStart : Option String
  termEnd : Option String
  series : List (String × SeriesEntry)
  items : List ScheduleItem
deriving DecidableEq

/-- One segment of a zod issue path: a property name or an array index. -/
inductive PathSeg
  | str (s : String)
  | idx (n : Nat)
deriving DecidableEq

/-- A structured issue as added by `ctx.addIssue`: a path plus a
human-readable message (the `code: custom` field is the same for every
issue and is omitted). -/
structure Issue where
  path : List PathSeg
  message : String
deriving DecidableEq

/-- JS truthiness of an optional string: `undefined` and the empty string
are falsy. -/
def truthyStr : Option String → Bool
  | some s => !(s == "")
  | none => false

/-- First-match association-list lookup, embedding property access on a
parsed JSON object (whose keys are unique). -/
def alookup (k : String) : List (String × α) → Option α
  | [] => none
  | (k2, v) :: rest => if k == k2 then some v else alookup k rest

/-! The cross-field validator: Schedule.superRefine of src/unnamed/part_003
lines 206-289, split into the same blocks the source has.  Each distinct
`ctx.addIssue` call gets a named constructor carrying its literal path and
message. -/

/-- The issue of the root term-bound check. -/
def termIssue : Issue :=
  ⟨[.str "termEnd"], "termEnd must be on or after termStart"⟩

/-- The issue of the both-or-neither presence check; the path's last
segment depends on which of the two fields is present. -/
def pairIssue (i : Nat) (hasSeries : Bool) : Issue :=
  ⟨[.str "items", .idx i, .str (if hasSeries then "variant" else "seriesId")],
    "If seriesId is provided, variant must be provided (and vice versa)"⟩

/-- The issue of a seriesId with no registry entry (its message
interpolates the seriesId). -/
def seriesNotFoundIssue (i : Nat) (sid : String) : Issue :=
  ⟨[.str "items", .idx i, .str "seriesId"],
    "seriesId \"" ++ sid ++ "\" not found in schedule.series"⟩

/-- The issue of a variant key missing from the series' variant list. -/
def variantKeyIssue (i : Nat) : Issue :=
  ⟨[.str "items", .idx i, .str "variant", .str "key"],
    "variant.key must be one of series[seriesId].variants for this series"⟩

/-- The issue of a recurring item whose endTime is not after startTime. -/
def endTimeIssue (i : Nat) : Issue :=
  ⟨[.str "items", .idx i, .str "endTime"],
    "endTime must be strictly after startTime"⟩

/-- The issue of a recurring item whose endOn is before startOn. -/
def endOnIssue (i : Nat) : Issue :=
  ⟨[.str "items", .idx i, .str "endOn"], "endOn must be on or after startOn"⟩

/-- The issue of a weekly rule with a missing or empty byWeekday. -/
def byWeekdayIssue (i : Nat) : Issue :=
  ⟨[.str "items", .idx i, .str "on", .str "byWeekday"],
    "Weekly recurrence must specify non-empty byWeekday"⟩

/-- The issue of a single item whose end is not after start. -/
def endIssue (i : Nat) : Issue :=
  ⟨[.str "items", .idx i, .str "end"], "end must be strictly after start"⟩

/-- Root term-bound check: `val.termStart && val.termEnd && val.termEnd <
val.termStart` adds one issue at path `termEnd`. -/
def termIssues (v : Schedule) : List Issue :=
  match v.termStart, v.termEnd with
  | some ts, some te =>
    if !(ts == "") && !(te == "") && jsLt te ts then [termIssue] else []
  | _, _ => []

/-- Series/variant binding checks for item `i`: both-or-neither presence
(JS truthiness: an empty seriesId string is falsy), then, when both are
bound, existence of the series entry and membership of the variant key
(an else-if: the key is only checked when the series entry exists). -/
def bindingIssues (series : List (String × SeriesEntry)) (i : Nat)
    (item : ScheduleItem) : List Issue :=
  let hasSeries := truthyStr item.base.seriesId
  let hasVariant := item.base.variant.isSome
  (if hasSeries != hasVariant then [pairIssue i hasSeries] else []) ++
  (if hasSeries && hasVariant then
    match alookup (item.base.seriesId.getD "") series with
    | none => [seriesNotFoundIssue i (item.base.seriesId.getD "")]
    | some seriesEntry =>
      if seriesEntry.variants.contains
          ((item.base.variant.getD ⟨"", none, none, none⟩).key) then []
      else [variantKeyIssue i]
  else [])

/-- Per-kind checks for item `i`: for recurring items the endTime/startTime
ordering, the startOn/endOn ordering and weekly byWeekday non-emptiness;
for single items the end/start ordering.  All comparisons are JS lexical
string comparisons. -/
def kindIssues (i : Nat) (item : ScheduleItem) : List Issue :=
  match item with
  | .recurring _ «on» startTime endTime startOn endOn _ _ =>
    (if jsLe endTime startTime then [endTimeIssue i] else []) ++
    (match startOn, endOn with
    | some so, some eo =>
      if !(so == "") && !(eo == "") && jsLt eo so then [endOnIssue i] else []
    | _, _ => []) ++
    (if «on».freq == Freq.weekly &&
        (match «on».byWeekday with | none => true | some l => l.isEmpty) then
      [byWeekdayIssue i]
    else [])
  | .single _ start «end» _ =>
    if jsLe «end» start then [endIssue i] else []

/-- All checks for item `i`, in source order: binding first, then the
per-kind checks. -/
def itemIssues (series : List (String × SeriesEntry)) (i : Nat)
    (item : ScheduleItem) : List Issue :=
  bindingIssues series i item ++ kindIssues i item

/-- The validator's loop over `val.items.entries()`, with the index of the
first item given explicitly. -/
def itemsIssues (series : List (String × SeriesEntry)) :
    Nat → List ScheduleItem → List Issue
  | _, [] => []
  | i, item :: rest => itemIssues series i item ++ itemsIssues series (i + 1) rest

/-- The whole superRefine of the part_003 Schedule schema: the root
term-bound check followed by every item's checks, in item order; nothing
stops at the first issue. -/
def scheduleIssues (v : Schedule) : List Issue :=
  termIssues v ++ itemsIssues v.series 0 v.items

/-! Field-level well-formedness: what zod already guarantees about a parsed
Schedule before superRefine runs (formats of dates and times, non-empty
byWeekday when present, positive intervals, unique record keys, minimum
lengths).  Stated as an executable predicate and used as the hypothesis
"the Schedule was produced by the parser". -/

/-- zod field guarantees of a parsed RecurrenceRule. -/
def ruleWF (r : RecurrenceRule) : Bool :=
  (match r.interval with | none => true | some n => decide (0 < n)) &&
  (match r.byWeekday with | none => true | some l => !l.isEmpty) &&
  (match r.byMonthday with
   | none => true
   | some l => l.all (fun n => decide (1 ≤ n) && decide (n ≤ 31))) &&
  (match r.byMonth with
   | none => true
   | some l => l.all (fun n => decide (1 ≤ n) && decide (n ≤ 12))) &&
  (match r.nthWeekdayOfMonth with
   | none => true
   | some l => l.all (fun p => decide (p.nth = 1) || decide (p.nth = 2) ||
       decide (p.nth = 3) || decide (p.nth = 4) || decide (p.nth = -1)))

/-- zod field guarantees of a parsed VariantInfo (`key` has min length 1,
capacity is positive). -/
def variantWF (vi : VariantInfo) : Bool :=
  !(vi.key == "") &&
  (match vi.capacity with | none => true | some n => decide (0 < n))

/-- zod field guarantees of a parsed SeriesEntry (non-empty title,
non-empty variant list of non-empty keys). -/
def seriesEntryWF (e : SeriesEntry) : Bool :=
  !(e.title == "") && !e.variants.isEmpty && e.variants.all (fun k => !(k == ""))

/-- zod field guarantees of a parsed per-date override. -/
def overrideWF : OccurrenceOverride → Bool
  | .cancel => true
  | .patch st en _ _ _ _ _ =>
    (match st with | none => true | some t => IsoTime t) &&
    (match en with | none => true | some t => IsoTime t)

/-- zod field guarantees of a parsed ScheduleItem. -/
def itemWF : ScheduleItem → Bool
  | .single b start «end» _ =>
    IsoDateTime start && IsoDateTime «end» &&
    (match b.variant with | none => true | some vi => variantWF vi)
  | .recurring b «on» startTime endTime startOn endOn exclude overrides =>
    ruleWF «on» && IsoTime startTime && IsoTime endTime &&
    (match startOn with | none => true | some d => IsoDate d) &&
    (match endOn with | none => true | some d => IsoDate d) &&
    exclude.all IsoDate &&
    (match overrides with
     | none => true
     | some ovs =>
       decide ((ovs.map Prod.fst).Nodup) &&
       ovs.all (fun kv => IsoDate kv.1 && overrideWF kv.2)) &&
    (match b.variant with | none => true | some vi => variantWF vi)

/-- zod field guarantees of a parsed Schedule document. -/
def scheduleWF (v : Schedule) : Bool :=
  IanaTZ v.timeZone &&
  (match v.termStart with | none => true | some d => IsoDate d) &&
  (match v.termEnd with | none => true | some d => IsoDate d) &&
  decide ((v.series.map Prod.fst).Nodup) &&
  v.series.all (fun kv => seriesEntryWF kv.2) &&
  v.items.all itemWF

/-! Membership characterizations of the validator's issue lists. -/

theorem mem_termIssues_iff (v : Schedule) (iss : Issue) :
    iss ∈ termIssues v ↔
      ∃ ts te, v.termStart = some ts ∧ v.termEnd = some te ∧
        (!(ts == "") && !(te == "") && jsLt te ts) = true ∧ iss = termIssue := by
  unfold termIssues
  cases v.termStart with
  | none => simp
  | some ts =>
    cases v.termEnd with
    | none => simp
    | some te =>
      by_cases hts : ts = "" <;> by_cases hte : te = "" <;>
        cases hlt : jsLt te ts <;> simp [hts, hte, hlt]

theorem mem_bindingIssues_iff (series : List (String × SeriesEntry)) (i : Nat)
    (item : ScheduleItem) (iss : Issue) :
    iss ∈ bindingIssues series i item ↔
      ((truthyStr item.base.seriesId ≠ item.base.variant.isSome ∧
          iss = pairIssue i (truthyStr item.base.seriesId)) ∨
        (truthyStr item.base.seriesId = true ∧ item.base.variant.isSome = true ∧
          ((alookup (item.base.seriesId.getD "") series = none ∧
              iss = seriesNotFoundIssue i (item.base.seriesId.getD "")) ∨
            (∃ e, alookup (item.base.seriesId.getD "") series = some e ∧
              e.variants.contains
                ((item.base.variant.getD ⟨"", none, none, none⟩).key) = false ∧
              iss = variantKeyIssue i)))) := by
  unfold bindingIssues
  cases hs : truthyStr item.base.seriesId <;>
    cases hv : item.base.variant.isSome <;>
      simp only [hs, hv, bne_self_eq_false, Bool.bne_true, Bool.bne_false,
        Bool.not_true, Bool.not_false, Bool.and_self, Bool.and_true,
        Bool.and_false, Bool.true_and, Bool.false_and, if_true, if_false,
        List.nil_append, List.append_nil, List.not_mem_nil, List.mem_singleton]
  · simp
  · simp
  · simp
  · cases halo : alookup (item.base.seriesId.getD "") series with
    | none => simp
    | some e =>
      by_cases hcont : e.variants.contains
          ((item.base.variant.getD ⟨"", none, none, none⟩).key) = true
      · simp [hcont]
      · simp only [Bool.not_eq_true] at hcont
        simp [hcont]

theorem mem_kindIssues_recurring (i : Nat) (b : BaseItem) (r : RecurrenceRule)
    (st et : String) (so eo : Option String) (ex : List String)
    (ov : Option (List (String × OccurrenceOverride))) (iss : Issue) :
    iss ∈ kindIssues i (.recurring b r st et so eo ex ov) ↔
      ((jsLe et st = true ∧ iss = endTimeIssue i) ∨
        ((∃ so2 eo2, so = some so2 ∧ eo = some eo2 ∧
            (!(so2 == "") && !(eo2 == "") && jsLt eo2 so2) = true) ∧
          iss = endOnIssue i) ∨
        ((r.freq == Freq.weekly &&
            (match r.byWeekday with | none => true | some l => l.isEmpty)) = true ∧
          iss = byWeekdayIssue i)) := by
  unfold kindIssues
  cases so with
  | none =>
    cases eo <;> cases h1 : jsLe et st <;>
      by_cases h3 : (r.freq == Freq.weekly &&
        (match r.byWeekday with | none => true | some l => l.isEmpty)) = true <;>
      simp [h1, h3]
  | some so2 =>
    cases eo with
    | none =>
      cases h1 : jsLe et st <;>
        by_cases h3 : (r.freq == Freq.weekly &&
          (match r.byWeekday with | none => true | some l => l.isEmpty)) = true <;>
        simp [h1, h3]
    | some eo2 =>
      cases h1 : jsLe et st <;>
        by_cases h3 : (r.freq == Freq.weekly &&
          (match r.byWeekday with | none => true | some l => l.isEmpty)) = true <;>
        by_cases hso : so2 = "" <;> by_cases heo : eo2 = "" <;>
        cases hlt : jsLt eo2 so2 <;>
        simp [h1, h3, hso, heo, hlt]

theorem mem_kindIssues_single (i : Nat) (b : BaseItem) (s e : String)
    (a : Option Bool) (iss : Issue) :
    iss ∈ kindIssues i (.single b s e a) ↔
      (jsLe e s = true ∧ iss = endIssue i) := by
  unfold kindIssues
  by_cases h : jsLe e s = true
  · simp [h]
  · simp only [Bool.not_eq_true] at h
    simp [h]

theorem mem_itemsIssues_iff (series : List (String × SeriesEntry))
    (l : List ScheduleItem) (n : Nat) (iss : Issue) :
    iss ∈ itemsIssues series n l ↔
      ∃ j item, l[j]? = some item ∧ iss ∈ itemIssues series (n + j) item := by
  induction l generalizing n with
  | nil => simp [itemsIssues]
  | cons item rest ih =>
    simp only [itemsIssues, List.mem_append, ih]
    constructor
    · rintro (h | ⟨j, item2, hj, hmem⟩)
      · exact ⟨0, item, by simp, by simpa using h⟩
      · refine ⟨j + 1, item2, by simpa using hj, ?_⟩
        have hidx : n + (j + 1) = n + 1 + j := by omega
        rw [hidx]
        exact hmem
    · rintro ⟨j, item2, hj, hmem⟩
      cases j with
      | zero =>
        left
        simp only [List.getElem?_cons_zero, Option.some_inj] at hj
        subst hj
        simpa using hmem
      | succ j =>
        right
        refine ⟨j, item2, by simpa using hj, ?_⟩
        have hidx : n + 1 + j = n + (j + 1) := by omega
        rw [hidx]
        exact hmem

theorem mem_scheduleIssues_iff (v : Schedule) (iss : Issue) :
    iss ∈ scheduleIssues v ↔
      (iss ∈ termIssues v ∨
        ∃ j item, v.items[j]? = some item ∧ iss ∈ itemIssues v.series j item) := by
  unfold scheduleIssues
  simp [List.mem_append, mem_itemsIssues_iff]

/-- Every issue an item's checks add has a path that starts with
`items`, then the item's index. -/
theorem itemIssues_path (series : List (String × SeriesEntry)) (j : Nat)
    (item : ScheduleItem) (iss : Issue) (h : iss ∈ itemIssues series j item) :
    ∃ rest, iss.path = .str "items" :: .idx j :: rest := by
  rcases List.mem_append.mp h with hb | hk
  · rw [mem_bindingIssues_iff] at hb
    rcases hb with ⟨_, rfl⟩ | ⟨_, _, ⟨_, rfl⟩ | ⟨e, _, _, rfl⟩⟩
    · exact ⟨_, rfl⟩
    · exact ⟨_, rfl⟩
    · exact ⟨_, rfl⟩
  · cases item with
    | single b s e a =>
      rw [mem_kindIssues_single] at hk
      exact hk.2 ▸ ⟨_, rfl⟩
    | recurring b r st et so eo ex ov =>
      rw [mem_kindIssues_recurring] at hk
      rcases hk with ⟨_, rfl⟩ | ⟨_, rfl⟩ | ⟨_, rfl⟩
      · exact ⟨_, rfl⟩
      · exact ⟨_, rfl⟩
      · exact ⟨_, rfl⟩

/-- Splitting a list at a known index. -/
theorem eq_take_cons_drop {α : Type} {l : List α} {i : Nat} {a : α}
    (h : l[i]? = some a) : l = l.take i ++ a :: l.drop (i + 1) := by
  induction l generalizing i with
  | nil => simp at h
  | cons x t ih =>
    cases i with
    | zero =>
      simp only [List.getElem?_cons_zero, Option.some_inj] at h
      subst h
      simp
    | succ i =>
      simp only [List.getElem?_cons_succ] at h
      have := ih h
      simp only [List.take_succ_cons, List.drop_succ_cons, List.cons_append,
        List.cons.injEq, true_and]
      exact this

/-- The item loop distributes over list append. -/
theorem itemsIssues_append (series : List (String × SeriesEntry))
    (l1 l2 : List ScheduleItem) : ∀ n,
    itemsIssues series n (l1 ++ l2) =
      itemsIssues series n l1 ++ itemsIssues series (n + l1.length) l2 := by
  induction l1 with
  | nil => intro n; simp [itemsIssues]
  | cons a t ih =>
    intro n
    have hlen : n + 1 + t.length = n + (a :: t).length := by
      simp only [List.length_cons]
      omega
    calc itemsIssues series n ((a :: t) ++ l2)
        = itemIssues series n a ++ itemsIssues series (n + 1) (t ++ l2) := rfl
      _ = itemIssues series n a ++ (itemsIssues series (n + 1) t ++
            itemsIssues series (n + 1 + t.length) l2) := by rw [ih]
      _ = (itemIssues series n a ++ itemsIssues series (n + 1) t) ++
            itemsIssues series (n + (a :: t).length) l2 := by
          rw [← List.append_assoc, hlen]
      _ = itemsIssues series n (a :: t) ++
            itemsIssues series (n + (a :: t).length) l2 := rfl

/-- IsoDate never accepts the empty string. -/
theorem IsoDate_ne_empty (s : String) (h : IsoDate s = true) : ¬s = "" := by
  intro heq
  rw [heq] at h
  exact absurd h (by decide)

/-! Concrete example schedules used by witnesses and counterexamples. -/

/-- An item base with every optional field absent. -/
def noBase : BaseItem := ⟨none, none, none, none, none, none, none, none⟩

/-- A weekly rule with no byWeekday list. -/
def exBadRule : RecurrenceRule := ⟨Freq.weekly, none, none, none, none, none⟩

/-- A recurring item violating the endTime and byWeekday checks. -/
def exBadItem0 : ScheduleItem :=
  .recurring noBase exBadRule "10:00:00" "09:00:00" none none [] none

/-- A single item violating the end/start ordering. -/
def exBadItem1 : ScheduleItem :=
  .single noBase "2025-09-09T10:00:00" "2025-09-09T09:00:00" none

/-- A schedule with four consistency violations: inverted term bounds,
inverted recurring times, missing weekly byWeekday, inverted single
times. -/
def exBad : Schedule :=
  ⟨none, "Atlantic/Canary", some "2025-12-31", some "2025-01-01", [],
    [exBadItem0, exBadItem1]⟩

/-- A series entry with two variants. -/
def exSeries : SeriesEntry := ⟨"Algorithms", none, none, none, [], ["PE101", "PA101"]⟩

/-- A well-formed recurring item correctly bound to the series. -/
def exOkItem : ScheduleItem :=
  .recurring ⟨none, none, none, none, none, none, some "algo", some ⟨"PE101", none, none, none⟩⟩
    ⟨Freq.weekly, some 1, some [Weekday.mo, Weekday.we], none, none, none⟩
    "09:00:00" "10:00:00" (some "2025-09-09") (some "2025-12-19") [] none

/-- A schedule that passes every cross-field check. -/
def exOk : Schedule :=
  ⟨none, "Atlantic/Canary", some "2025-09-09", some "2025-12-19",
    [("algo", exSeries)], [exOkItem]⟩

/-- An item carrying `seriesId: ""` (present but empty) and no variant. -/
def exC2Item : ScheduleItem :=
  .single ⟨none, none, none, none, none, none, some "", none⟩
    "2025-09-09T08:00:00" "2025-09-09T09:00:00" none

/-- A schedule whose only item has a present-but-empty seriesId and no
variant. -/
def exC2 : Schedule := ⟨none, "Atlantic/Canary", none, none, [], [exC2Item]⟩

/-- A monthly recurring item (byMonthday pattern). -/
def exMonthlyItem : ScheduleItem :=
  .recurring noBase ⟨Freq.monthly, some 1, none, some [15], none, none⟩
    "09:00:00" "10:00:00" (some "2025-09-01") (some "2025-12-19") [] none

/-- A yearly recurring item (byMonth and nthWeekdayOfMonth patterns). -/
def exYearlyItem : ScheduleItem :=
  .recurring noBase ⟨Freq.yearly, none, none, none, some [1],
      some [⟨Weekday.mo, 1⟩]⟩
    "09:00:00" "10:00:00" (some "2025-09-01") (some "2025-12-19") [] none

/-- A schedule with a monthly and a yearly item and nothing else. -/
def exMonthly : Schedule :=
  ⟨none, "Atlantic/Canary", some "2025-09-01", some "2025-12-19", [],
    [exMonthlyItem, exYearlyItem]⟩

/-- An item bound to a seriesId that is not in the registry. -/
def exC10Item : ScheduleItem :=
  .recurring ⟨none, none, none, none, none, none, some "missing", some ⟨"X", none, none, none⟩⟩
    ⟨Freq.weekly, none, some [Weekday.mo], none, none, none⟩
    "09:00:00" "10:00:00" none (some "2025-12-19") [] none

/-- A schedule whose only item references an unknown series. -/
def exC10 : Schedule :=
  ⟨none, "Atlantic/Canary", some "2025-09-09", some "2025-12-19", [],
    [exC10Item]⟩

/-! Claim C3. -/

/-- C3: for every recurring item of a Schedule document, cross-field
validation reports the issue at that item's endTime path exactly when
endTime is not strictly after startTime in the lexical HH:MM:SS order, and
the check passes exactly when endTime is strictly after startTime. -/
theorem claim_C3_endTime_check (v : Schedule) (i : Nat) (b : BaseItem)
    (r : RecurrenceRule) (st et : String) (so eo : Option String)
    (ex : List String) (ov : Option (List (String × OccurrenceOverride)))
    (hi : v.items[i]? = some (.recurring b r st et so eo ex ov)) :
    endTimeIssue i ∈ scheduleIssues v ↔ jsLe et st = true := by
  rw [mem_scheduleIssues_iff]
  constructor
  · rintro (hterm | ⟨j, item, hj, hmem⟩)
    · rw [mem_termIssues_iff] at hterm
      obtain ⟨_, _, _, _, _, heq⟩ := hterm
      exact absurd heq (by simp [endTimeIssue, termIssue])
    · rcases List.mem_append.mp hmem with hb | hk
      · rw [mem_bindingIssues_iff] at hb
        rcases hb with ⟨_, heq⟩ | ⟨_, _, ⟨_, heq⟩ | ⟨e, _, _, heq⟩⟩
        · exact absurd heq (by simp [endTimeIssue, pairIssue])
        · exact absurd heq (by simp [endTimeIssue, seriesNotFoundIssue])
        · exact absurd heq (by simp [endTimeIssue, variantKeyIssue])
      · cases item with
        | single b2 s2 e2 a2 =>
          rw [mem_kindIssues_single] at hk
          exact absurd hk.2 (by simp [endTimeIssue, endIssue])
        | recurring b2 r2 st2 et2 so2 eo2 ex2 ov2 =>
          rw [mem_kindIssues_recurring] at hk
          rcases hk with ⟨hcond, heq⟩ | ⟨_, heq⟩ | ⟨_, heq⟩
          · have hij : i = j := by simpa [endTimeIssue] using heq
            subst hij
            rw [hi] at hj
            simp only [Option.some_inj, ScheduleItem.recurring.injEq] at hj
            obtain ⟨_, _, hst, het, _⟩ := hj
            rw [← hst, ← het] at hcond
            exact hcond
          · exact absurd heq (by simp [endTimeIssue, endOnIssue])
          · exact absurd heq (by simp [endTimeIssue, byWeekdayIssue])
  · intro h
    right
    refine ⟨i, _, hi, List.mem_append.mpr (Or.inr ?_)⟩
    rw [mem_kindIssues_recurring]
    exact Or.inl ⟨h, rfl⟩

/-- C3 witness: the first item of exBad has endTime 09:00:00 not after
startTime 10:00:00, and the issue at its endTime path is reported. -/
theorem claim_C3_endTime_check_witness :
    endTimeIssue 0 ∈ scheduleIssues exBad :=
  (claim_C3_endTime_check exBad 0 noBase exBadRule "10:00:00" "09:00:00"
    none none [] none (by decide)).mpr (by decide)

/-! Claim C7. -/

/-- Both term bounds present with termEnd lexically before termStart. -/
def termViol (v : Schedule) : Bool :=
  match v.termStart, v.termEnd with
  | some ts, some te => jsLt te ts
  | _, _ => false

/-- Decomposed zod guarantees of a well-formed schedule. -/
theorem scheduleWF_parts (v : Schedule) (hwf : scheduleWF v = true) :
    IanaTZ v.timeZone = true ∧
    (∀ d, v.termStart = some d → IsoDate d = true) ∧
    (∀ d, v.termEnd = some d → IsoDate d = true) ∧
    (v.series.map Prod.fst).Nodup ∧
    (∀ kv ∈ v.series, seriesEntryWF kv.2 = true) ∧
    (∀ item ∈ v.items, itemWF item = true) := by
  unfold scheduleWF at hwf
  simp only [Bool.and_eq_true] at hwf
  obtain ⟨⟨⟨⟨⟨hA, hB⟩, hC⟩, hD⟩, hE⟩, hF⟩ := hwf
  refine ⟨hA, ?_, ?_, by simpa using hD, ?_, ?_⟩
  · intro d hd; rw [hd] at hB; simpa using hB
  · intro d hd; rw [hd] at hC; simpa using hC
  · intro kv hkv; exact List.all_eq_true.mp hE kv hkv
  · intro item hitem; exact List.all_eq_true.mp hF item hitem

/-- Under zod's field guarantees, the term check fires exactly on a term
violation. -/
theorem termIssues_eq (v : Schedule) (hwf : scheduleWF v = true) :
    termIssues v = if termViol v = true then [termIssue] else [] := by
  obtain ⟨_, hts, hte, _, _, _⟩ := scheduleWF_parts v hwf
  unfold termIssues termViol
  cases hs : v.termStart with
  | none => simp
  | some ts =>
    cases he : v.termEnd with
    | none => simp
    | some te =>
      have h1 : ¬ts = "" := IsoDate_ne_empty ts (hts ts hs)
      have h2 : ¬te = "" := IsoDate_ne_empty te (hte te he)
      cases hlt : jsLt te ts <;> simp [h1, h2, hlt]

/-- C7: a validated Schedule has termEnd on or after termStart whenever
both are present; the issue at path termEnd is added exactly when both
bounds are present and termEnd is before termStart, and that check runs
once, at the root, before any per-item check. -/
theorem claim_C7_term_bound (v : Schedule) (hwf : scheduleWF v = true) :
    ((scheduleIssues v).countP
        (fun iss => iss.path == [PathSeg.str "termEnd"]) =
      if termViol v = true then 1 else 0) ∧
    (termViol v = true → (scheduleIssues v).head? = some termIssue) ∧
    (scheduleIssues v = [] → ∀ ts te, v.termStart = some ts →
      v.termEnd = some te → jsLt te ts = false) := by
  have hterm := termIssues_eq v hwf
  unfold scheduleIssues
  refine ⟨?_, ?_, ?_⟩
  · rw [List.countP_append]
    have hzero : (itemsIssues v.series 0 v.items).countP
        (fun iss => iss.path == [PathSeg.str "termEnd"]) = 0 := by
      rw [List.countP_eq_zero]
      intro iss hmem
      obtain ⟨j, item, hj, hmem2⟩ := (mem_itemsIssues_iff _ _ _ _).mp hmem
      obtain ⟨rest, hpath⟩ := itemIssues_path _ _ _ _ hmem2
      simp [hpath]
    rw [hzero, hterm]
    cases htv : termViol v <;> simp [termIssue]
  · intro htv
    rw [hterm, htv]
    simp
  · intro hempty ts te hts hte
    have h0 : termIssues v = [] := (List.append_eq_nil.mp hempty).1
    rw [hterm] at h0
    by_cases htv : termViol v = true
    · rw [htv] at h0; simp at h0
    · unfold termViol at htv
      rw [hts, hte] at htv
      simpa using htv

/-- C7 witness: exBad both has inverted term bounds, reports exactly one
issue at path termEnd, and reports it first. -/
theorem claim_C7_term_bound_witness :
    ((scheduleIssues exBad).countP
        (fun iss => iss.path == [PathSeg.str "termEnd"]) =
      if termViol exBad = true then 1 else 0) ∧
    (termViol exBad = true → (scheduleIssues exBad).head? = some termIssue) ∧
    (scheduleIssues exBad = [] → ∀ ts te, exBad.termStart = some ts →
      exBad.termEnd = some te → jsLt te ts = false) :=
  claim_C7_term_bound exBad (by decide)

/-! Claims C2 and C10. -/

/-- Does an issue's path point at item `i`'s series/variant binding
(seriesId, variant, or variant.key)? -/
def bindingPathP (i : Nat) (iss : Issue) : Bool :=
  iss.path == [PathSeg.str "items", .idx i, .str "seriesId"] ||
  iss.path == [PathSeg.str "items", .idx i, .str "variant"] ||
  iss.path == [PathSeg.str "items", .idx i, .str "variant", .str "key"]

/-- Every issue whose path points at item `i`'s binding comes from the
binding checks of item `i` itself. -/
theorem binding_path_source (v : Schedule) (i : Nat) (item : ScheduleItem)
    (iss : Issue) (hi : v.items[i]? = some item) (h : iss ∈ scheduleIssues v)
    (hp : bindingPathP i iss = true) :
    iss ∈ bindingIssues v.series i item := by
  rw [mem_scheduleIssues_iff] at h
  rcases h with hterm | ⟨j, item2, hj, hmem⟩
  · rw [mem_termIssues_iff] at hterm
    obtain ⟨_, _, _, _, _, rfl⟩ := hterm
    exact absurd hp (by simp [bindingPathP, termIssue])
  · rcases List.mem_append.mp hmem with hb | hk
    · have hb0 := hb
      rw [mem_bindingIssues_iff] at hb
      have hji : j = i := by
        rcases hb with ⟨_, rfl⟩ | ⟨_, _, ⟨_, rfl⟩ | ⟨e, _, _, rfl⟩⟩
        · cases hhs : truthyStr item2.base.seriesId <;>
            simpa [bindingPathP, pairIssue, hhs] using hp
        · simpa [bindingPathP, seriesNotFoundIssue] using hp
        · simpa [bindingPathP, variantKeyIssue] using hp
      subst hji
      rw [hi] at hj
      have heq : item = item2 := Option.some_inj.mp hj
      rw [← heq] at hb0
      exact hb0
    · exfalso
      cases item2 with
      | single b2 s2 e2 a2 =>
        rw [mem_kindIssues_single] at hk
        rw [hk.2] at hp
        simp [bindingPathP, endIssue] at hp
      | recurring b2 r2 st2 et2 so2 eo2 ex2 ov2 =>
        rw [mem_kindIssues_recurring] at hk
        rcases hk with ⟨_, rfl⟩ | ⟨_, rfl⟩ | ⟨_, rfl⟩ <;>
          simp [bindingPathP, endTimeIssue, endOnIssue, byWeekdayIssue] at hp

/-- C2 counterexample: the only item of exC2 has seriesId present (the
empty string) and no variant, yet whole-document validation reports no
issue at all: presence is JS truthiness, so a present-but-empty seriesId
behaves as absent. -/
theorem claim_C2_cex :
    exC2.items = [exC2Item] ∧ (exC2Item.base.seriesId).isSome = true ∧
      exC2Item.base.variant = none ∧ scheduleIssues exC2 = [] := by
  refine ⟨rfl, by decide, by decide, by decide⟩

/-- C2 (amended): validation accepts an item's series/variant binding iff
the binding is truthily absent (seriesId missing or empty, and no variant)
or truthily present on both sides with the seriesId in the registry and the
variant key among that series' variants; and rewriting the variant key to
an absent token always produces the unknown-variant issue at the item's
variant.key path. -/
theorem claim_C2_binding (v : Schedule) (i : Nat) (item : ScheduleItem)
    (hi : v.items[i]? = some item) :
    ((∀ iss ∈ scheduleIssues v, bindingPathP i iss = false) ↔
      ((truthyStr item.base.seriesId = false ∧ item.base.variant = none) ∨
        (∃ sid vi e, item.base.seriesId = some sid ∧ ¬sid = "" ∧
          item.base.variant = some vi ∧ alookup sid v.series = some e ∧
          vi.key ∈ e.variants))) ∧
    (∀ sid vi e, item.base.seriesId = some sid → ¬sid = "" →
      item.base.variant = some vi → alookup sid v.series = some e →
      vi.key ∉ e.variants → variantKeyIssue i ∈ scheduleIssues v) := by
  have hmk : ∀ iss, iss ∈ bindingIssues v.series i item →
      iss ∈ scheduleIssues v := by
    intro iss hb
    rw [mem_scheduleIssues_iff]
    exact Or.inr ⟨i, item, hi, List.mem_append.mpr (Or.inl hb)⟩
  constructor
  · constructor
    · intro hacc
      cases hs : truthyStr item.base.seriesId with
      | false =>
        cases hv : item.base.variant with
        | none => exact Or.inl ⟨rfl, rfl⟩
        | some vi =>
          exfalso
          have hbmem : pairIssue i false ∈ bindingIssues v.series i item := by
            rw [mem_bindingIssues_iff]
            exact Or.inl ⟨by rw [hs, hv]; simp, by rw [hs]⟩
          have := hacc _ (hmk _ hbmem)
          simp [bindingPathP, pairIssue] at this
      | true =>
        obtain ⟨sid, hsid⟩ : ∃ sid, item.base.seriesId = some sid := by
          cases hq : item.base.seriesId with
          | none => rw [hq] at hs; simp [truthyStr] at hs
          | some s => exact ⟨s, rfl⟩
        have hsid_ne : ¬sid = "" := by
          rw [hsid] at hs
          simpa [truthyStr] using hs
        have hgd : item.base.seriesId.getD "" = sid := by rw [hsid]; rfl
        cases hv : item.base.variant with
        | none =>
          exfalso
          have hbmem : pairIssue i true ∈ bindingIssues v.series i item := by
            rw [mem_bindingIssues_iff]
            exact Or.inl ⟨by rw [hs, hv]; simp, by rw [hs]⟩
          have := hacc _ (hmk _ hbmem)
          simp [bindingPathP, pairIssue] at this
        | some vi =>
          cases halo : alookup sid v.series with
          | none =>
            exfalso
            have hbmem : seriesNotFoundIssue i sid ∈
                bindingIssues v.series i item := by
              rw [mem_bindingIssues_iff]
              refine Or.inr ⟨hs, by simp [hv], Or.inl ⟨?_, ?_⟩⟩
              · rw [hgd]; exact halo
              · rw [hgd]
            have := hacc _ (hmk _ hbmem)
            simp [bindingPathP, seriesNotFoundIssue] at this
          | some e =>
            by_cases hcont : vi.key ∈ e.variants
            · exact Or.inr ⟨sid, vi, e, hsid, hsid_ne, rfl, halo, hcont⟩
            · exfalso
              have hbmem : variantKeyIssue i ∈ bindingIssues v.series i item := by
                rw [mem_bindingIssues_iff]
                refine Or.inr ⟨hs, by simp [hv], Or.inr ⟨e, ?_, ?_, rfl⟩⟩
                · rw [hgd]; exact halo
                · rw [hv]; simpa using hcont
              have := hacc _ (hmk _ hbmem)
              simp [bindingPathP, variantKeyIssue] at this
    · intro hrhs iss hmem
      cases hbp : bindingPathP i iss with
      | false => rfl
      | true =>
        exfalso
        have hbsrc := binding_path_source v i item iss hi hmem hbp
        rw [mem_bindingIssues_iff] at hbsrc
        rcases hrhs with ⟨hs, hv⟩ | ⟨sid, vi, e, hsid, hsne, hv, halo, hkey⟩
        · rcases hbsrc with ⟨hne, _⟩ | ⟨hst, _, _⟩
          · exact hne (by rw [hs, hv]; rfl)
          · rw [hs] at hst; exact absurd hst (by simp)
        · have hs : truthyStr item.base.seriesId = true := by
            rw [hsid]; simpa [truthyStr] using hsne
          have hgd : item.base.seriesId.getD "" = sid := by rw [hsid]; rfl
          rcases hbsrc with ⟨hne, _⟩ | ⟨_, _, ⟨hnone, _⟩ | ⟨e2, halo2, hcont2, _⟩⟩
          · exact hne (by rw [hs, hv]; rfl)
          · rw [hgd, halo] at hnone
            exact absurd hnone (by simp)
          · rw [hgd, halo] at halo2
            have he : e = e2 := Option.some_inj.mp halo2
            rw [hv] at hcont2
            rw [← he] at hcont2
            simp at hcont2
            exact hcont2 hkey
  · intro sid vi e hsid hsne hv halo hnkey
    apply hmk
    rw [mem_bindingIssues_iff]
    have hs : truthyStr item.base.seriesId = true := by
      rw [hsid]; simpa [truthyStr] using hsne
    have hgd : item.base.seriesId.getD "" = sid := by rw [hsid]; rfl
    refine Or.inr ⟨hs, by simp [hv], Or.inr ⟨e, ?_, ?_, rfl⟩⟩
    · rw [hgd]; exact halo
    · rw [hv]; simpa using hnkey

/-- C2 witness: the amended claim at the well-bound schedule exOk. -/
theorem claim_C2_binding_witness :
    ((∀ iss ∈ scheduleIssues exOk, bindingPathP 0 iss = false) ↔
      ((truthyStr exOkItem.base.seriesId = false ∧
          exOkItem.base.variant = none) ∨
        (∃ sid vi e, exOkItem.base.seriesId = some sid ∧ ¬sid = "" ∧
          exOkItem.base.variant = some vi ∧ alookup sid exOk.series = some e ∧
          vi.key ∈ e.variants))) ∧
    (∀ sid vi e, exOkItem.base.seriesId = some sid → ¬sid = "" →
      exOkItem.base.variant = some vi → alookup sid exOk.series = some e →
      vi.key ∉ e.variants → variantKeyIssue 0 ∈ scheduleIssues exOk) :=
  claim_C2_binding exOk 0 exOkItem (by decide)

/-- C10: when an item's binding has both sides present but its seriesId is
not a registry key, validation reports exactly one binding-scoped issue
for that item, and its path is the item's seriesId path (in particular no
variant.key issue is reported). -/
theorem claim_C10_unknown_series (v : Schedule) (i : Nat) (item : ScheduleItem)
    (sid : String) (vi : VariantInfo)
    (hi : v.items[i]? = some item)
    (hsid : item.base.seriesId = some sid)
    (hvi : item.base.variant = some vi)
    (hnone : alookup sid v.series = none) :
    (scheduleIssues v).countP (bindingPathP i) = 1 ∧
    ∀ iss ∈ scheduleIssues v, bindingPathP i iss = true →
      iss.path = [PathSeg.str "items", PathSeg.idx i, PathSeg.str "seriesId"] := by
  have hgd : item.base.seriesId.getD "" = sid := by rw [hsid]; rfl
  have hbi : bindingIssues v.series i item =
      if sid = "" then [pairIssue i false] else [seriesNotFoundIssue i sid] := by
    by_cases hse : sid = ""
    · subst hse
      unfold bindingIssues
      rw [hsid, hvi]
      simp [truthyStr]
    · unfold bindingIssues
      rw [hgd, hnone, hsid, hvi]
      simp [truthyStr, hse]
  constructor
  · have hlen : (v.items.take i).length = i := by
      have := (List.getElem?_eq_some.mp hi).1
      simp [List.length_take]
      omega
    have hsplit := eq_take_cons_drop hi
    unfold scheduleIssues
    rw [hsplit, itemsIssues_append, hlen]
    have h1 : itemsIssues v.series (0 + i) (item :: v.items.drop (i + 1)) =
        itemIssues v.series (0 + i) item ++
          itemsIssues v.series (0 + i + 1) (v.items.drop (i + 1)) := rfl
    rw [h1]
    simp only [Nat.zero_add]
    rw [List.countP_append, List.countP_append, List.countP_append]
    have hterm0 : (termIssues v).countP (bindingPathP i) = 0 := by
      rw [List.countP_eq_zero]
      intro iss hmem
      rw [mem_termIssues_iff] at hmem
      obtain ⟨_, _, _, _, _, rfl⟩ := hmem
      simp [bindingPathP, termIssue]
    have htake0 : (itemsIssues v.series 0 (v.items.take i)).countP
        (bindingPathP i) = 0 := by
      rw [List.countP_eq_zero]
      intro iss hmem
      obtain ⟨j, item2, hj, hmem2⟩ := (mem_itemsIssues_iff _ _ _ _).mp hmem
      have hjlt : j < i := by
        have := (List.getElem?_eq_some.mp hj).1
        omega
      obtain ⟨rest, hpath⟩ := itemIssues_path _ _ _ _ hmem2
      simp only [Nat.zero_add] at hpath
      have hne : ¬j = i := by omega
      simp [bindingPathP, hpath, hne]
    have hdrop0 : (itemsIssues v.series (i + 1) (v.items.drop (i + 1))).countP
        (bindingPathP i) = 0 := by
      rw [List.countP_eq_zero]
      intro iss hmem
      obtain ⟨j, item2, hj, hmem2⟩ := (mem_itemsIssues_iff _ _ _ _).mp hmem
      obtain ⟨rest, hpath⟩ := itemIssues_path _ _ _ _ hmem2
      have hne : ¬(i + 1 + j) = i := by omega
      simp [bindingPathP, hpath, hne]
    have hkind0 : (kindIssues i item).countP (bindingPathP i) = 0 := by
      rw [List.countP_eq_zero]
      intro iss hmem
      cases item with
      | single b2 s2 e2 a2 =>
        rw [mem_kindIssues_single] at hmem
        rw [hmem.2]
        simp [bindingPathP, endIssue]
      | recurring b2 r2 st2 et2 so2 eo2 ex2 ov2 =>
        rw [mem_kindIssues_recurring] at hmem
        rcases hmem with ⟨_, rfl⟩ | ⟨_, rfl⟩ | ⟨_, rfl⟩ <;>
          simp [bindingPathP, endTimeIssue, endOnIssue, byWeekdayIssue]
    have hbind1 : (bindingIssues v.series i item).countP (bindingPathP i) = 1 := by
      rw [hbi]
      by_cases hse : sid = "" <;>
        simp [hse, List.countP_cons, bindingPathP, pairIssue, seriesNotFoundIssue]
    unfold itemIssues
    rw [List.countP_append, hterm0, htake0, hdrop0, hkind0, hbind1]
  · intro iss hmem hbp
    have hbsrc := binding_path_source v i item iss hi hmem hbp
    rw [hbi] at hbsrc
    by_cases hse : sid = ""
    · rw [if_pos hse] at hbsrc
      rw [List.mem_singleton.mp hbsrc]
      rfl
    · rw [if_neg hse] at hbsrc
      rw [List.mem_singleton.mp hbsrc]
      rfl

/-- C10 witness at the concrete schedule exC10. -/
theorem claim_C10_unknown_series_witness :
    (scheduleIssues exC10).countP (bindingPathP 0) = 1 ∧
    ∀ iss ∈ scheduleIssues exC10, bindingPathP 0 iss = true →
      iss.path = [PathSeg.str "items", PathSeg.idx 0, PathSeg.str "seriesId"] :=
  claim_C10_unknown_series exC10 0 exC10Item "missing" ⟨"X", none, none, none⟩
    (by decide) (by decide) (by decide) (by decide)

/-! Claim C9. -/

/-- C9: the weekday-set consistency check applies only to weekly rules —
an item whose freq is not weekly (monthly, yearly, daily) never gets an
issue at its on.byWeekday path — and the concrete schedule exMonthly with
one monthly and one yearly item is well-formed and passes validation with
no issue at all. -/
theorem claim_C9_monthly_yearly :
    (∀ (v : Schedule) (i : Nat) (b : BaseItem) (r : RecurrenceRule)
        (st et : String) (so eo : Option String) (ex : List String)
        (ov : Option (List (String × OccurrenceOverride))),
      v.items[i]? = some (.recurring b r st et so eo ex ov) →
      ¬r.freq = Freq.weekly →
      ∀ iss ∈ scheduleIssues v,
        iss.path ≠ [PathSeg.str "items", .idx i, .str "on", .str "byWeekday"]) ∧
    scheduleWF exMonthly = true ∧ scheduleIssues exMonthly = [] := by
  refine ⟨?_, by decide, by decide⟩
  intro v i b r st et so eo ex ov hi hfreq iss hmem hpath
  rw [mem_scheduleIssues_iff] at hmem
  rcases hmem with hterm | ⟨j, item2, hj, hmem⟩
  · rw [mem_termIssues_iff] at hterm
    obtain ⟨_, _, _, _, _, rfl⟩ := hterm
    simp [termIssue] at hpath
  · rcases List.mem_append.mp hmem with hb | hk
    · rw [mem_bindingIssues_iff] at hb
      rcases hb with ⟨_, rfl⟩ | ⟨_, _, ⟨_, rfl⟩ | ⟨e, _, _, rfl⟩⟩
      · cases hhs : truthyStr item2.base.seriesId <;>
          simp [pairIssue, hhs] at hpath
      · simp [seriesNotFoundIssue] at hpath
      · simp [variantKeyIssue] at hpath
    · cases item2 with
      | single b2 s2 e2 a2 =>
        rw [mem_kindIssues_single] at hk
        rw [hk.2] at hpath
        simp [endIssue] at hpath
      | recurring b2 r2 st2 et2 so2 eo2 ex2 ov2 =>
        rw [mem_kindIssues_recurring] at hk
        rcases hk with ⟨_, rfl⟩ | ⟨_, rfl⟩ | ⟨hw, rfl⟩
        · simp [endTimeIssue] at hpath
        · simp [endOnIssue] at hpath
        · have hji : j = i := by simpa [byWeekdayIssue] using hpath
          subst hji
          rw [hi] at hj
          simp only [Option.some_inj, ScheduleItem.recurring.injEq] at hj
          obtain ⟨_, hr, _, _, _⟩ := hj
          rw [Bool.and_eq_true] at hw
          have hfw : r2.freq = Freq.weekly := by simpa using hw.1
          rw [← hr] at hfw
          exact hfreq hfw

/-! Claim C8. -/

/-- C8: the primitive validators accept exactly their strict literal
formats: IsoDate exactly the YYYY-MM-DD shapes, IsoTime exactly the
HH:MM:SS shapes (seconds required, no fraction, no suffix), IanaTZ exactly
the Area/Location shapes with at least one slash-separated segment; in
particular any single-token name without a slash is rejected. -/
theorem claim_C8_primitive_formats :
    (∀ s, IsoDate s = true ↔ DateShape s) ∧
    (∀ s, IsoTime s = true ↔ TimeShape s) ∧
    (∀ s, IanaTZ s = true ↔ TZShape s) ∧
    (∀ s, (∀ c ∈ s.data, c ≠ '/') → IanaTZ s = false) :=
  ⟨IsoDate_iff_DateShape, IsoTime_iff_TimeShape, IanaTZ_iff_TZShape,
    IanaTZ_no_slash_false⟩

/-! Claim C1: the embedded validator against the specification's check
list, written as a second, spec-side definition and proved equal on every
parsed document. -/

/-- Spec check 1 (root-level, once): if both term bounds are present,
termEnd must be on or after termStart. -/
def specTermCheck (v : Schedule) : List Issue :=
  match v.termStart, v.termEnd with
  | some ts, some te => if jsLt te ts then [termIssue] else []
  | _, _ => []

/-- Spec check 2a: seriesId and variant both present or both absent
(presence follows the source's JS truthiness, see claim C2). -/
def specPresenceCheck (i : Nat) (item : ScheduleItem) : List Issue :=
  if truthyStr item.base.seriesId = item.base.variant.isSome then []
  else [pairIssue i (truthyStr item.base.seriesId)]

/-- Spec check 2b: when both are present the series must exist and the
variant key must be listed in that series' variants. -/
def specResolutionCheck (series : List (String × SeriesEntry)) (i : Nat)
    (item : ScheduleItem) : List Issue :=
  if truthyStr item.base.seriesId && item.base.variant.isSome then
    match alookup (item.base.seriesId.getD "") series with
    | none => [seriesNotFoundIssue i (item.base.seriesId.getD "")]
    | some e =>
      if e.variants.contains
          ((item.base.variant.getD ⟨"", none, none, none⟩).key)
      then [] else [variantKeyIssue i]
  else []

/-- Spec check 3, for recurring items: endTime strictly after startTime,
endOn on or after startOn when both present, and a non-empty weekday set
when the rule's frequency requires one. -/
def specRecurringCheck (i : Nat) (r : RecurrenceRule) (st et : String)
    (so eo : Option String) : List Issue :=
  (if jsLe et st then [endTimeIssue i] else []) ++
  (match so, eo with
   | some so2, some eo2 => if jsLt eo2 so2 then [endOnIssue i] else []
   | _, _ => []) ++
  (if r.freq == Freq.weekly && (r.byWeekday.getD []).isEmpty then
    [byWeekdayIssue i] else [])

/-- Spec check 4, for single items: end strictly after start. -/
def specSingleCheck (i : Nat) (s e : String) : List Issue :=
  if jsLe e s then [endIssue i] else []

/-- All spec checks of one item, in the listed order. -/
def specItemChecks (series : List (String × SeriesEntry)) (i : Nat)
    (item : ScheduleItem) : List Issue :=
  specPresenceCheck i item ++ specResolutionCheck series i item ++
  (match item with
   | .recurring _ r st et so eo _ _ => specRecurringCheck i r st et so eo
   | .single _ s e _ => specSingleCheck i s e)

/-- The spec's aggregated batch: the root check once, then every item's
checks in item order. -/
def specExpectedIssues (v : Schedule) : List Issue :=
  specTermCheck v ++
    ((List.enumFrom 0 v.items).map
      (fun q => specItemChecks v.series q.1 q.2)).flatten

/-- Decomposed zod guarantees of a well-formed recurring item. -/
theorem itemWF_recurring_parts (b : BaseItem) (r : RecurrenceRule)
    (st et : String) (so eo : Option String) (ex : List String)
    (ov : Option (List (String × OccurrenceOverride)))
    (hwf : itemWF (.recurring b r st et so eo ex ov) = true) :
    ruleWF r = true ∧ IsoTime st = true ∧ IsoTime et = true ∧
    (∀ d, so = some d → IsoDate d = true) ∧
    (∀ d, eo = some d → IsoDate d = true) := by
  unfold itemWF at hwf
  simp only [Bool.and_eq_true] at hwf
  obtain ⟨⟨⟨⟨⟨⟨⟨h1, h2⟩, h3⟩, h4⟩, h5⟩, _⟩, _⟩, _⟩ := hwf
  refine ⟨h1, h2, h3, ?_, ?_⟩
  · intro d hd; rw [hd] at h4; simpa using h4
  · intro d hd; rw [hd] at h5; simpa using h5

/-- On a parsed item, the embedded checks produce exactly the
specification's per-item check list. -/
theorem itemIssues_eq_spec (series : List (String × SeriesEntry)) (i : Nat)
    (item : ScheduleItem) (hwf : itemWF item = true) :
    itemIssues series i item = specItemChecks series i item := by
  have hbind : bindingIssues series i item =
      specPresenceCheck i item ++ specResolutionCheck series i item := by
    unfold bindingIssues specPresenceCheck specResolutionCheck
    cases hs : truthyStr item.base.seriesId <;>
      cases hv : item.base.variant.isSome <;> simp [hs, hv]
  unfold itemIssues specItemChecks
  rw [hbind]
  congr 1
  cases item with
  | single b s e a => rfl
  | recurring b r st et so eo ex ov =>
    obtain ⟨_, _, _, hso, heo⟩ := itemWF_recurring_parts b r st et so eo ex ov hwf
    have hbw2 : (if r.freq == Freq.weekly &&
          (match r.byWeekday with | none => true | some l => l.isEmpty) then
        [byWeekdayIssue i] else []) =
        (if r.freq == Freq.weekly && (r.byWeekday.getD []).isEmpty then
        [byWeekdayIssue i] else []) := by
      cases hbw : r.byWeekday <;> simp [hbw]
    cases so with
    | none =>
      cases eo with
      | none => simp only [kindIssues, specRecurringCheck]; rw [hbw2]
      | some eo2 => simp only [kindIssues, specRecurringCheck]; rw [hbw2]
    | some so2 =>
      cases eo with
      | none => simp only [kindIssues, specRecurringCheck]; rw [hbw2]
      | some eo2 =>
        have h1 : ¬so2 = "" := IsoDate_ne_empty so2 (hso so2 rfl)
        have h2 : ¬eo2 = "" := IsoDate_ne_empty eo2 (heo eo2 rfl)
        have hmid2 : (if !(so2 == "") && !(eo2 == "") && jsLt eo2 so2 then
            [endOnIssue i] else ([] : List Issue)) =
            (if jsLt eo2 so2 then [endOnIssue i] else []) := by
          cases hlt : jsLt eo2 so2 <;> simp [h1, h2, hlt]
        simp only [kindIssues, specRecurringCheck]
        rw [hmid2, hbw2]

/-- On a parsed document, the embedded superRefine produces exactly the
specification's aggregated, ordered issue batch. -/
theorem scheduleIssues_eq_spec (v : Schedule) (hwf : scheduleWF v = true) :
    scheduleIssues v = specExpectedIssues v := by
  obtain ⟨_, hts, hte, _, _, hitems⟩ := scheduleWF_parts v hwf
  unfold scheduleIssues specExpectedIssues
  have hterm : termIssues v = specTermCheck v := by
    unfold termIssues specTermCheck
    cases hs : v.termStart with
    | none => rfl
    | some ts =>
      cases he : v.termEnd with
      | none => rfl
      | some te =>
        have h1 : ¬ts = "" := IsoDate_ne_empty ts (hts ts hs)
        have h2 : ¬te = "" := IsoDate_ne_empty te (hte te he)
        cases hlt : jsLt te ts <;> simp [h1, h2, hlt]
  rw [hterm]
  congr 1
  have main : ∀ (n : Nat) (l : List ScheduleItem),
      (∀ item ∈ l, itemWF item = true) →
      itemsIssues v.series n l =
        ((List.enumFrom n l).map
          (fun q => specItemChecks v.series q.1 q.2)).flatten := by
    intro n l
    induction l generalizing n with
    | nil => intro _; rfl
    | cons a t ih =>
      intro hall
      have ha := hall a (by simp)
      have ht : ∀ item ∈ t, itemWF item = true :=
        fun item hm => hall item (by simp [hm])
      show itemIssues v.series n a ++ itemsIssues v.series (n + 1) t = _
      rw [ih (n + 1) ht, itemIssues_eq_spec v.series n a ha]
      rfl
  exact main 0 v.items hitems

/-- C1: cross-field validation of a parsed Schedule produces exactly the
specification's batch of structured issues — every violation, collected in
one pass, ordered by item position with per-item checks in the listed
order, never stopping at the first violation — and on the concrete
multi-violation schedule exBad all four issues appear in that order. -/
theorem claim_C1_aggregated_batch :
    (∀ v : Schedule, scheduleWF v = true →
      scheduleIssues v = specExpectedIssues v) ∧
    scheduleIssues exBad =
      [termIssue, endTimeIssue 0, byWeekdayIssue 0, endIssue 1] :=
  ⟨scheduleIssues_eq_spec, by decide⟩

/-! Claim C6: construction of a recurrence rule from untrusted input.
The zod union `Recurrence` of src/src/schemas/schedule.ts (lines 41-144)
is a discriminated union on the literal field `kind`; its parsing
semantics is embedded as a decoder over a JSON value model. -/

/-- A JSON value.  Numbers are modelled as integers: every numeric field
of the Recurrence schemas is constrained by `.int()`, so non-integral
numbers are rejected before the checks modelled here. -/
inductive JVal
  | jstr (s : String)
  | jnum (n : Int)
  | jbool (b : Bool)
  | jnull
  | jarr (xs : List JVal)
  | jobj (fields : List (String × JVal))

/-- The WeekdayPosition enum: 1, 2, 3, 4, last. -/
inductive WeekdayPosition
  | p1 | p2 | p3 | p4 | last
deriving DecidableEq

/-- The Recurrence union of src/src/schemas/schedule.ts as a closed sum. -/
inductive Recurrence
  | simpleWeekly (byDays : List Weekday) (startTime endTime : String)
      (interval : Option Int) («until» : Option String)
  | daily (interval : Option Int) («until» : Option String)
  | weekly (interval : Option Int) (byDays : List Weekday)
      («until» : Option String)
  | monthlyByDay (interval : Option Int) (byMonthDay : Int)
      («until» : Option String)
  | monthlyByWeekday (interval : Option Int) (position : WeekdayPosition)
      (weekday : Weekday) («until» : Option String)
  | xDays (dates : List String)

/-- Property lookup on a JSON object's fields. -/
def getField (fields : List (String × JVal)) (k : String) : Option JVal :=
  alookup k fields

/-- Decode a string constrained by the IsoDate regex. -/
def decodeIsoDate : JVal → Option String
  | .jstr s => if IsoDate s then some s else none
  | _ => none

/-- Decode a string constrained by the IsoTime regex. -/
def decodeIsoTime : JVal → Option String
  | .jstr s => if IsoTime s then some s else none
  | _ => none

/-- Decode one of the seven weekday literals. -/
def decodeWeekday : JVal → Option Weekday
  | .jstr "MO" => some .mo
  | .jstr "TU" => some .tu
  | .jstr "WE" => some .we
  | .jstr "TH" => some .th
  | .jstr "FR" => some .fr
  | .jstr "SA" => some .sa
  | .jstr "SU" => some .su
  | _ => none

/-- Decode one of the five weekday-position literals. -/
def decodePosition : JVal → Option WeekdayPosition
  | .jstr "1" => some .p1
  | .jstr "2" => some .p2
  | .jstr "3" => some .p3
  | .jstr "4" => some .p4
  | .jstr "last" => some .last
  | _ => none

/-- Decode `z.number().int().positive()`. -/
def decodePosInt : JVal → Option Int
  | .jnum n => if 0 < n then some n else none
  | _ => none

/-- Decode `z.number().int().min(1).max(31)`. -/
def decodeMonthDay : JVal → Option Int
  | .jnum n => if 1 ≤ n ∧ n ≤ 31 then some n else none
  | _ => none

/-- Decode an array, element-wise. -/
def decodeArr (d : JVal → Option α) : JVal → Option (List α)
  | .jarr xs => xs.mapM d
  | _ => none

/-- A required object field: must exist and decode. -/
def reqField (fields : List (String × JVal)) (k : String)
    (d : JVal → Option α) : Option α :=
  (getField fields k).bind d

/-- An optional object field: may be missing, but must decode when
present. -/
def optField (fields : List (String × JVal)) (k : String)
    (d : JVal → Option α) : Option (Option α) :=
  match getField fields k with
  | none => some none
  | some v => (d v).map some

/-- The RecurrenceSimpleWeekly object schema. -/
def parseSimpleWeekly (fields : List (String × JVal)) : Option Recurrence := do
  let byDays ← reqField fields "byDays" (decodeArr decodeWeekday)
  if byDays.isEmpty then none
  else do
    let st ← reqField fields "startTime" decodeIsoTime
    let et ← reqField fields "endTime" decodeIsoTime
    let interval ← optField fields "interval" decodePosInt
    let until2 ← optField fields "until" decodeIsoDate
    some (.simpleWeekly byDays st et interval until2)

/-- The RecurrenceDaily object schema. -/
def parseDaily (fields : List (String × JVal)) : Option Recurrence := do
  let interval ← optField fields "interval" decodePosInt
  let until2 ← optField fields "until" decodeIsoDate
  some (.daily interval until2)

/-- The RecurrenceWeekly object schema. -/
def parseWeekly (fields : List (String × JVal)) : Option Recurrence := do
  let interval ← optField fields "interval" decodePosInt
  let byDays ← reqField fields "byDays" (decodeArr decodeWeekday)
  if byDays.isEmpty then none
  else do
    let until2 ← optField fields "until" decodeIsoDate
    some (.weekly interval byDays until2)

/-- The RecurrenceMonthlyByDay object schema. -/
def parseMonthlyByDay (fields : List (String × JVal)) : Option Recurrence := do
  let interval ← optField fields "interval" decodePosInt
  let byMonthDay ← reqField fields "byMonthDay" decodeMonthDay
  let until2 ← optField fields "until" decodeIsoDate
  some (.monthlyByDay interval byMonthDay until2)

/-- The RecurrenceMonthlyByWeekday object schema. -/
def parseMonthlyByWeekday (fields : List (String × JVal)) :
    Option Recurrence := do
  let interval ← optField fields "interval" decodePosInt
  let position ← reqField fields "position" decodePosition
  let weekday ← reqField fields "weekday" decodeWeekday
  let until2 ← optField fields "until" decodeIsoDate
  some (.monthlyByWeekday interval position weekday until2)

/-- The RecurrenceExplicitDates object schema. -/
def parseXDays (fields : List (String × JVal)) : Option Recurrence := do
  let dates ← reqField fields "dates" (decodeArr decodeIsoDate)
  if dates.isEmpty then none else some (.xDays dates)

/-- The discriminated union: dispatch on the literal `kind` field; any
other value of `kind`, a missing `kind`, or a non-object input is
rejected. -/
def parseRecurrence : JVal → Option Recurrence
  | .jobj fields =>
    match getField fields "kind" with
    | some (.jstr k) =>
      if k = "simpleWeekly" then parseSimpleWeekly fields
      else if k = "daily" then parseDaily fields
      else if k = "weekly" then parseWeekly fields
      else if k = "monthlyByDay" then parseMonthlyByDay fields
      else if k = "monthlyByWeekday" then parseMonthlyByWeekday fields
      else if k = "xDays" then parseXDays fields
      else none
    | _ => none
  | _ => none

/-- The weekday set of a rule whose kind requires one. -/
def Recurrence.weeklyDays : Recurrence → Option (List Weekday)
  | .simpleWeekly byDays _ _ _ _ => some byDays
  | .weekly _ byDays _ => some byDays
  | _ => none

/-- Results of parseSimpleWeekly are simpleWeekly rules with non-empty
byDays. -/
theorem parseSimpleWeekly_shape (fields : List (String × JVal))
    (r : Recurrence) (h : parseSimpleWeekly fields = some r) :
    ∃ byDays st et interval until2, ¬byDays = [] ∧
      r = .simpleWeekly byDays st et interval until2 := by
  unfold parseSimpleWeekly at h
  simp only [Option.pure_def, Option.bind_eq_bind, Option.bind_eq_some, Option.some_inj] at h
  obtain ⟨byDays, _, h⟩ := h
  by_cases he : byDays.isEmpty = true
  · rw [if_pos he] at h
    simp at h
  · rw [if_neg he] at h
    simp only [Option.pure_def, Option.bind_eq_bind, Option.bind_eq_some, Option.some_inj] at h
    obtain ⟨st, _, et, _, interval, _, until2, _, hr⟩ := h
    exact ⟨byDays, st, et, interval, until2,
      by simpa using he, hr.symm⟩

/-- Results of parseWeekly are weekly rules with non-empty byDays. -/
theorem parseWeekly_shape (fields : List (String × JVal))
    (r : Recurrence) (h : parseWeekly fields = some r) :
    ∃ interval byDays until2, ¬byDays = [] ∧
      r = .weekly interval byDays until2 := by
  unfold parseWeekly at h
  simp only [Option.pure_def, Option.bind_eq_bind, Option.bind_eq_some, Option.some_inj] at h
  obtain ⟨interval, _, byDays, _, h⟩ := h
  by_cases he : byDays.isEmpty = true
  · rw [if_pos he] at h
    simp at h
  · rw [if_neg he] at h
    simp only [Option.pure_def, Option.bind_eq_bind, Option.bind_eq_some, Option.some_inj] at h
    obtain ⟨until2, _, hr⟩ := h
    exact ⟨interval, byDays, until2, by simpa using he, hr.symm⟩

/-- Results of the other four parsers carry no weekday set. -/
theorem parse_others_weeklyDays (fields : List (String × JVal))
    (r : Recurrence)
    (h : parseDaily fields = some r ∨ parseMonthlyByDay fields = some r ∨
      parseMonthlyByWeekday fields = some r ∨ parseXDays fields = some r) :
    r.weeklyDays = none := by
  rcases h with h | h | h | h
  · unfold parseDaily at h
    simp only [Option.pure_def, Option.bind_eq_bind, Option.bind_eq_some, Option.some_inj] at h
    obtain ⟨_, _, _, _, hr⟩ := h
    rw [← hr]
    rfl
  · unfold parseMonthlyByDay at h
    simp only [Option.pure_def, Option.bind_eq_bind, Option.bind_eq_some, Option.some_inj] at h
    obtain ⟨_, _, _, _, _, _, hr⟩ := h
    rw [← hr]
    rfl
  · unfold parseMonthlyByWeekday at h
    simp only [Option.pure_def, Option.bind_eq_bind, Option.bind_eq_some, Option.some_inj] at h
    obtain ⟨_, _, _, _, _, _, _, _, hr⟩ := h
    rw [← hr]
    rfl
  · unfold parseXDays at h
    simp only [Option.pure_def, Option.bind_eq_bind, Option.bind_eq_some, Option.some_inj] at h
    obtain ⟨dates, _, h⟩ := h
    by_cases he : dates.isEmpty = true
    · rw [if_pos he] at h
      simp at h
    · rw [if_neg he] at h
      rw [← Option.some_inj.mp h]
      rfl

/-- C6: parsing a recurrence from untrusted input succeeds only on an
object whose kind is one of the six known discriminants; any parsed
weekly or simpleWeekly rule has a non-empty weekday set; and in the
part_003 revision no well-formed Schedule that passes cross-field
validation contains a weekly-freq rule with a missing or empty
byWeekday. -/
theorem claim_C6_untrusted_rules :
    (∀ j r, parseRecurrence j = some r →
      ∃ fields k, j = .jobj fields ∧
        getField fields "kind" = some (.jstr k) ∧
        (k = "simpleWeekly" ∨ k = "daily" ∨ k = "weekly" ∨
          k = "monthlyByDay" ∨ k = "monthlyByWeekday" ∨ k = "xDays")) ∧
    (∀ j r l, parseRecurrence j = some r → r.weeklyDays = some l →
      ¬l = []) ∧
    (∀ v : Schedule, scheduleWF v = true → scheduleIssues v = [] →
      ∀ (i : Nat) (b : BaseItem) (r : RecurrenceRule) (st et : String)
        (so eo : Option String) (ex : List String)
        (ov : Option (List (String × OccurrenceOverride))),
        v.items[i]? = some (.recurring b r st et so eo ex ov) →
        r.freq = Freq.weekly →
        ∃ l, r.byWeekday = some l ∧ ¬l = []) := by
  refine ⟨?_, ?_, ?_⟩
  · intro j r h
    cases j with
    | jobj fields =>
      refine ⟨fields, ?_⟩
      simp only [parseRecurrence] at h
      cases hk : getField fields "kind" with
      | none => simp [hk] at h
      | some kv =>
        cases kv with
        | jstr k =>
          simp only [hk] at h
          by_cases h1 : k = "simpleWeekly"
          · exact ⟨k, rfl, rfl, Or.inl h1⟩
          · rw [if_neg h1] at h
            by_cases h2 : k = "daily"
            · exact ⟨k, rfl, rfl, Or.inr (Or.inl h2)⟩
            · rw [if_neg h2] at h
              by_cases h3 : k = "weekly"
              · exact ⟨k, rfl, rfl, Or.inr (Or.inr (Or.inl h3))⟩
              · rw [if_neg h3] at h
                by_cases h4 : k = "monthlyByDay"
                · exact ⟨k, rfl, rfl, Or.inr (Or.inr (Or.inr (Or.inl h4)))⟩
                · rw [if_neg h4] at h
                  by_cases h5 : k = "monthlyByWeekday"
                  · exact ⟨k, rfl, rfl,
                      Or.inr (Or.inr (Or.inr (Or.inr (Or.inl h5))))⟩
                  · rw [if_neg h5] at h
                    by_cases h6 : k = "xDays"
                    · exact ⟨k, rfl, rfl,
                        Or.inr (Or.inr (Or.inr (Or.inr (Or.inr h6))))⟩
                    · rw [if_neg h6] at h
                      exact absurd h (by simp)
        | jnum n => simp [hk] at h
        | jbool b => simp [hk] at h
        | jnull => simp [hk] at h
        | jarr xs => simp [hk] at h
        | jobj f2 => simp [hk] at h
    | jstr s => simp [parseRecurrence] at h
    | jnum n => simp [parseRecurrence] at h
    | jbool b => simp [parseRecurrence] at h
    | jnull => simp [parseRecurrence] at h
    | jarr xs => simp [parseRecurrence] at h
  · intro j r l h hwd
    cases j with
    | jobj fields =>
      simp only [parseRecurrence] at h
      cases hk : getField fields "kind" with
      | none => simp [hk] at h
      | some kv =>
        cases kv with
        | jstr k =>
          simp only [hk] at h
          by_cases h1 : k = "simpleWeekly"
          · rw [if_pos h1] at h
            obtain ⟨byDays, st, et, interval, until2, hne, hr⟩ :=
              parseSimpleWeekly_shape fields r h
            rw [hr] at hwd
            rw [Option.some_inj.mp hwd] at hne
            exact hne
          · rw [if_neg h1] at h
            by_cases h2 : k = "daily"
            · rw [if_pos h2] at h
              rw [parse_others_weeklyDays fields r (Or.inl h)] at hwd
              exact absurd hwd (by simp)
            · rw [if_neg h2] at h
              by_cases h3 : k = "weekly"
              · rw [if_pos h3] at h
                obtain ⟨interval, byDays, until2, hne, hr⟩ :=
                  parseWeekly_shape fields r h
                rw [hr] at hwd
                rw [Option.some_inj.mp hwd] at hne
                exact hne
              · rw [if_neg h3] at h
                by_cases h4 : k = "monthlyByDay"
                · rw [if_pos h4] at h
                  rw [parse_others_weeklyDays fields r (Or.inr (Or.inl h))]
                    at hwd
                  exact absurd hwd (by simp)
                · rw [if_neg h4] at h
                  by_cases h5 : k = "monthlyByWeekday"
                  · rw [if_pos h5] at h
                    rw [parse_others_weeklyDays fields r
                      (Or.inr (Or.inr (Or.inl h)))] at hwd
                    exact absurd hwd (by simp)
                  · rw [if_neg h5] at h
                    by_cases h6 : k = "xDays"
                    · rw [if_pos h6] at h
                      rw [parse_others_weeklyDays fields r
                        (Or.inr (Or.inr (Or.inr h)))] at hwd
                      exact absurd hwd (by simp)
                    · rw [if_neg h6] at h
                      exact absurd h (by simp)
        | jnum n => simp [hk] at h
        | jbool b => simp [hk] at h
        | jnull => simp [hk] at h
        | jarr xs => simp [hk] at h
        | jobj f2 => simp [hk] at h
    | jstr s => simp [parseRecurrence] at h
    | jnum n => simp [parseRecurrence] at h
    | jbool b => simp [parseRecurrence] at h
    | jnull => simp [parseRecurrence] at h
    | jarr xs => simp [parseRecurrence] at h
  · intro v hwf hempty i b r st et so eo ex ov hi hfreq
    have hmk : ∀ iss, iss ∈ kindIssues i (.recurring b r st et so eo ex ov) →
        iss ∈ scheduleIssues v := by
      intro iss hk
      rw [mem_scheduleIssues_iff]
      exact Or.inr ⟨i, _, hi, List.mem_append.mpr (Or.inr hk)⟩
    cases hbw : r.byWeekday with
    | none =>
      exfalso
      have hin : byWeekdayIssue i ∈ scheduleIssues v := by
        apply hmk
        rw [mem_kindIssues_recurring]
        refine Or.inr (Or.inr ⟨?_, rfl⟩)
        rw [hfreq, hbw]
        simp
      rw [hempty] at hin
      exact absurd hin (by simp)
    | some l =>
      refine ⟨l, rfl, ?_⟩
      intro hl
      have hin : byWeekdayIssue i ∈ scheduleIssues v := by
        apply hmk
        rw [mem_kindIssues_recurring]
        refine Or.inr (Or.inr ⟨?_, rfl⟩)
        rw [hfreq, hbw, hl]
        simp
      rw [hempty] at hin
      exact absurd hin (by simp)

/-! Claims C4 and C5: the occurrence-expansion engine.  The repository's
src tree contains no expansion code (only the schemas and external-service
glue), so the engine of spec section 4.5 is modelled here from the spec's
words; every definition of this block carries that caveat. -/

namespace Expansion

/-- Modelled from the spec: Gregorian leap year. -/
def isLeap (y : Int) : Bool := y % 4 == 0 && (y % 100 != 0 || y % 400 == 0)

/-- Modelled from the spec: days in a civil month. -/
def daysInMonth (y m : Int) : Int :=
  if m == 2 then (if isLeap y then 29 else 28)
  else if m == 4 || m == 6 || m == 9 || m == 11 then 30
  else 31

/-- Modelled from the spec: rata-die day number (days since 1970-01-01) of
a civil date, after Hinnant's days_from_civil. -/
def daysFromCivil (y m d : Int) : Int :=
  let y2 := if m ≤ 2 then y - 1 else y
  let era := (if 0 ≤ y2 then y2 else y2 - 399) / 400
  let yoe := y2 - era * 400
  let mp := (m + 9) % 12
  let doy := (153 * mp + 2) / 5 + d - 1
  let doe := yoe * 365 + yoe / 4 - yoe / 100 + doy
  era * 146097 + doe - 719468

/-- Modelled from the spec: civil date of a rata-die day number, after
Hinnant's civil_from_days. -/
def civilFromDays (z0 : Int) : Int × Int × Int :=
  let z := z0 + 719468
  let era := (if 0 ≤ z then z else z - 146096) / 146097
  let doe := z - era * 146097
  let yoe := (doe - doe / 1460 + doe / 36524 - doe / 146096) / 365
  let y := yoe + era * 400
  let doy := doe - (365 * yoe + yoe / 4 - yoe / 100)
  let mp := (5 * doy + 2) / 153
  let d := doy - (153 * mp + 2) / 5 + 1
  let m := if mp < 10 then mp + 3 else mp - 9
  (if m ≤ 2 then y + 1 else y, m, d)

/-- Modelled from the spec: the weekday of a rata-die number (1970-01-01
was a Thursday). -/
def weekdayOfRD (rd : Int) : Weekday :=
  let k := (((rd % 7) + 7) % 7).toNat
  if k = 0 then .th else if k = 1 then .fr else if k = 2 then .sa
  else if k = 3 then .su else if k = 4 then .mo else if k = 5 then .tu
  else .we

/-- The rata-die residue of each weekday (inverse of weekdayOfRD). -/
def wdCode : Weekday → Int
  | .th => 0 | .fr => 1 | .sa => 2 | .su => 3 | .mo => 4 | .tu => 5 | .we => 6

/-- Value of a decimal digit character. -/
def digitVal (c : Char) : Int := (c.toNat : Int) - 48

/-- Modelled from the spec: read a strict YYYY-MM-DD string (the engine
only receives validated dates; anything else maps to the epoch). -/
def parseDate (s : String) : Int × Int × Int :=
  match s.data with
  | [y1, y2, y3, y4, _, m1, m2, _, d1, d2] =>
    (1000 * digitVal y1 + 100 * digitVal y2 + 10 * digitVal y3 + digitVal y4,
     10 * digitVal m1 + digitVal m2, 10 * digitVal d1 + digitVal d2)
  | _ => (1970, 1, 1)

/-- Rata-die number of an ISO date string. -/
def rdOfIso (s : String) : Int :=
  match parseDate s with
  | (y, m, d) => daysFromCivil y m d

/-- Zero-padded two-digit rendering. -/
def pad2 (n : Int) : String := if n < 10 then "0" ++ toString n else toString n

/-- Zero-padded four-digit rendering. -/
def pad4 (n : Int) : String :=
  if n < 10 then "000" ++ toString n
  else if n < 100 then "00" ++ toString n
  else if n < 1000 then "0" ++ toString n
  else toString n

/-- ISO rendering of a civil date. -/
def isoOfYmd (y m d : Int) : String := pad4 y ++ "-" ++ pad2 m ++ "-" ++ pad2 d

/-- ISO rendering of a rata-die number. -/
def isoOfRD (rd : Int) : String :=
  match civilFromDays rd with
  | (y, m, d) => isoOfYmd y m d

/-- Modelled from the spec: the weekday-position of monthlyByWeekday. -/
inductive Pos
  | p1 | p2 | p3 | p4 | last
deriving DecidableEq

/-- Modelled from the spec: the RecurrenceRule tagged union of section 3.
The `none` variant marks zero recurrence and never occurs inside a
recurring item, so it has no constructor here. -/
inductive Rule
  | daily (interval : Option Nat) («until» : Option String)
  | weekly (byDays : List Weekday) (interval : Option Nat)
      («until» : Option String)
  | simpleWeekly (byDays : List Weekday) (startTime endTime : String)
      (interval : Option Nat) («until» : Option String)
  | monthlyByDay (byMonthDay : Nat) (interval : Option Nat)
      («until» : Option String)
  | monthlyByWeekday (position : Pos) (weekday : Weekday)
      (interval : Option Nat) («until» : Option String)
  | xDays (dates : List String)
deriving DecidableEq

/-- Modelled from the spec: a per-date override — a cancellation marker or
a partial patch. -/
inductive Ovr
  | cancel
  | patch (start «end» : Option String)
      (title location description color : Option String)
      (tags : Option (List String))
deriving DecidableEq

/-- Modelled from the spec: a recurring item (rule, base times, optional
date bounds, exclusion set, per-date override map as an association
list). -/
structure RecItem where
  id : Option String
  title : Option String
  location : Option String
  description : Option String
  rule : Rule
  startTime : String
  endTime : String
  startOn : Option String
  endOn : Option String
  exclude : List String
  overrides : List (String × Ovr)
deriving DecidableEq

/-- Modelled from the spec: a schedule item. -/
inductive XItem
  | single (id : Option String) (title : Option String)
      (location : Option String) (description : Option String)
      (start «end» : String)
  | recurring (item : RecItem)
deriving DecidableEq

/-- Modelled from the spec: the schedule root as the engine consumes it. -/
structure XSchedule where
  timeZone : String
  termStart : Option String
  termEnd : Option String
  series : List (String × SeriesEntry)
  items : List XItem
deriving DecidableEq

/-- Modelled from the spec: the EventInstance output shape. -/
structure EventInstance where
  classId : Option String
  title : String
  date : String
  startDateTimeLocal : String
  endDateTimeLocal : String
  location : Option String
  description : Option String
deriving DecidableEq

/-- Modelled from the spec: the expansion failure kind
(UnboundedRecurrence). -/
inductive ExpandError
  | unboundedRecurrence
deriving DecidableEq

/-- The until bound of a rule (xDays is self-bounding). -/
def Rule.untilDate : Rule → Option String
  | .daily _ u => u
  | .weekly _ _ u => u
  | .simpleWeekly _ _ _ _ u => u
  | .monthlyByDay _ _ u => u
  | .monthlyByWeekday _ _ _ u => u
  | .xDays _ => none

/-- The first present of two optional values. -/
def firstSome (a b : Option String) : Option String :=
  match a with
  | some x => some x
  | none => b

/-- Modelled from the spec: the effective window
`[startOn ?? termStart, endOn ?? (until ?? termEnd)]` as rata-die bounds;
none when either bound is unresolvable. -/
def effectiveWindow (termStart termEnd : Option String) (it : RecItem) :
    Option (Int × Int) :=
  match firstSome it.startOn termStart,
      firstSome it.endOn (firstSome it.rule.untilDate termEnd) with
  | some lo, some hi => some (rdOfIso lo, rdOfIso hi)
  | _, _ => none

/-- Modelled from the spec: daily stepping from the lower bound by
`interval` days up to the upper bound. -/
def dailyDates (lo hi : Int) (interval : Nat) : List String :=
  let k : Int := max 1 (interval : Int)
  if hi < lo then []
  else (List.range (((hi - lo) / k).toNat + 1)).map
    (fun j => isoOfRD (lo + k * (j : Int)))

/-- Modelled from the spec: weekly stepping — iterate week blocks from the
lower bound, stepping `interval` weeks, and keep the days of each block
whose weekday is in the set and which lie inside the window. -/
def weeklyDates (lo hi : Int) (interval : Nat) (byDays : List Weekday) :
    List String :=
  let k : Int := 7 * max 1 (interval : Int)
  if hi < lo then []
  else ((List.range (((hi - lo) / k).toNat + 1)).map (fun w =>
    (List.range 7).filterMap (fun off =>
      let rd := lo + k * (w : Int) + (off : Int)
      if decide (rd ≤ hi) && byDays.contains (weekdayOfRD rd) then
        some (isoOfRD rd)
      else none))).flatten

/-- Modelled from the spec: monthly-by-day stepping — for each stepped
month emit the given day-of-month when that day exists in the month
(months with fewer days have no occurrence; never clamp). -/
def monthlyByDayDates (lo hi : Int) (interval : Nat) (day : Nat) :
    List String :=
  let k : Int := max 1 (interval : Int)
  match civilFromDays lo, civilFromDays hi with
  | (ylo, mlo, _), (yhi, mhi, _) =>
    let milo := ylo * 12 + (mlo - 1)
    let mihi := yhi * 12 + (mhi - 1)
    if mihi < milo then []
    else (List.range (((mihi - milo) / k).toNat + 1)).filterMap (fun j =>
      let mi := milo + k * (j : Int)
      let y := mi / 12
      let m := mi % 12 + 1
      if decide ((day : Int) ≤ daysInMonth y m) then
        let rd := daysFromCivil y m (day : Int)
        if decide (lo ≤ rd) && decide (rd ≤ hi) then some (isoOfRD rd)
        else none
      else none)

/-- Modelled from the spec: the day-of-month of the (position, weekday)
pair in a month, when it exists. -/
def nthWeekdayDay (y m : Int) (pos : Pos) (w : Weekday) : Option Int :=
  let firstWd := ((daysFromCivil y m 1 % 7) + 7) % 7
  let off := ((wdCode w - firstWd) % 7 + 7) % 7
  match pos with
  | .p1 => if 1 + off ≤ daysInMonth y m then some (1 + off) else none
  | .p2 => if 8 + off ≤ daysInMonth y m then some (8 + off) else none
  | .p3 => if 15 + off ≤ daysInMonth y m then some (15 + off) else none
  | .p4 => if 22 + off ≤ daysInMonth y m then some (22 + off) else none
  | .last =>
    let dim := daysInMonth y m
    let lastWd := ((daysFromCivil y m dim % 7) + 7) % 7
    some (dim - (((lastWd - wdCode w) % 7 + 7) % 7))

/-- Modelled from the spec: monthly-by-weekday stepping. -/
def monthlyByWeekdayDates (lo hi : Int) (interval : Nat) (pos : Pos)
    (w : Weekday) : List String :=
  let k : Int := max 1 (interval : Int)
  match civilFromDays lo, civilFromDays hi with
  | (ylo, mlo, _), (yhi, mhi, _) =>
    let milo := ylo * 12 + (mlo - 1)
    let mihi := yhi * 12 + (mhi - 1)
    if mihi < milo then []
    else (List.range (((mihi - milo) / k).toNat + 1)).filterMap (fun j =>
      let mi := milo + k * (j : Int)
      let y := mi / 12
      let m := mi % 12 + 1
      match nthWeekdayDay y m pos w with
      | none => none
      | some d =>
        let rd := daysFromCivil y m d
        if decide (lo ≤ rd) && decide (rd ≤ hi) then some (isoOfRD rd)
        else none)

/-- Modelled from the spec: candidate dates of one recurring item — xDays
enumerates itself; every other rule needs a resolvable window, otherwise
the item-scoped UnboundedRecurrence error fails the whole expansion. -/
def candidateDates (termStart termEnd : Option String) (it : RecItem) :
    Except ExpandError (List String) :=
  match it.rule with
  | .xDays ds => .ok ds
  | r =>
    match effectiveWindow termStart termEnd it with
    | none => .error .unboundedRecurrence
    | some (lo, hi) =>
      .ok (match r with
        | .daily i _ => dailyDates lo hi (i.getD 1)
        | .weekly byDays i _ => weeklyDates lo hi (i.getD 1) byDays
        | .simpleWeekly byDays _ _ i _ => weeklyDates lo hi (i.getD 1) byDays
        | .monthlyByDay day i _ => monthlyByDayDates lo hi (i.getD 1) day
        | .monthlyByWeekday p w i _ => monthlyByWeekdayDates lo hi (i.getD 1) p w
        | .xDays ds => ds)

/-- Modelled from the spec: is this candidate date cancelled by its
per-date override? -/
def isCancelled (it : RecItem) (d : String) : Bool :=
  match alookup d it.overrides with
  | some .cancel => true
  | _ => false

/-- Modelled from the spec: base times of an item — a simpleWeekly rule
carries its own time window, otherwise the item's times apply. -/
def baseTimes (it : RecItem) : String × String :=
  match it.rule with
  | .simpleWeekly _ st et _ _ => (st, et)
  | _ => (it.startTime, it.endTime)

/-- Truncate a HH:MM:SS time to whole-minute resolution HH:MM:00. -/
def hhmm00 (t : String) : String := t.take 5 ++ ":00"

/-- Modelled from the spec: materialize one occurrence — start from the
item's base fields, apply the present fields of a per-date override as a
shallow patch, and render local datetimes as date ++ T ++ HH:MM:00. -/
def materialize (it : RecItem) (d : String) : EventInstance :=
  match baseTimes it with
  | (bst, bet) =>
    match alookup d it.overrides with
    | some (.patch st en ti lo de _ _) =>
      { classId := it.id
        title := (firstSome ti it.title).getD ""
        date := d
        startDateTimeLocal := d ++ "T" ++ hhmm00 (st.getD bst)
        endDateTimeLocal := d ++ "T" ++ hhmm00 (en.getD bet)
        location := firstSome lo it.location
        description := firstSome de it.description }
    | _ =>
      { classId := it.id
        title := it.title.getD ""
        date := d
        startDateTimeLocal := d ++ "T" ++ hhmm00 bst
        endDateTimeLocal := d ++ "T" ++ hhmm00 bet
        location := it.location
        description := it.description }

/-- Modelled from the spec: expand one recurring item — generate
candidates, drop excluded and cancelled dates, materialize the rest in
date order. -/
def expandRecurring (termStart termEnd : Option String) (it : RecItem) :
    Except ExpandError (List EventInstance) :=
  match candidateDates termStart termEnd it with
  | .error e => .error e
  | .ok ds =>
    .ok ((ds.filter
      (fun d => !(it.exclude.contains d) && !(isCancelled it d))).map
      (materialize it))

/-- Modelled from the spec: expand one item — a single item emits exactly
one instance at its fixed start/end. -/
def expandItem (termStart termEnd : Option String) :
    XItem → Except ExpandError (List EventInstance)
  | .single id title location description start «end» =>
    .ok [{ classId := id
           title := title.getD ""
           date := start.take 10
           startDateTimeLocal := start.take 16 ++ ":00"
           endDateTimeLocal := «end».take 16 ++ ":00"
           location := location
           description := description }]
  | .recurring it => expandRecurring termStart termEnd it

/-- Modelled from the spec: expand every item in order; any item-scoped
error fails the whole expansion (no partial output). -/
def expandItems (termStart termEnd : Option String) :
    List XItem → Except ExpandError (List EventInstance)
  | [] => .ok []
  | it :: rest =>
    match expandItem termStart termEnd it with
    | .error e => .error e
    | .ok a =>
      match expandItems termStart termEnd rest with
      | .error e => .error e
      | .ok b => .ok (a ++ b)

/-- Modelled from the spec: expansion of a validated schedule. -/
def expand (s : XSchedule) : Except ExpandError (List EventInstance) :=
  expandItems s.termStart s.termEnd s.items

end Expansion

/-- First-match lookup in an association list is invariant under
permutation when the keys are distinct. -/
theorem alookup_perm {α : Type} {l1 l2 : List (String × α)} (h : l1.Perm l2) :
    ∀ (k : String), (l1.map Prod.fst).Nodup → alookup k l1 = alookup k l2 := by
  induction h with
  | nil => intro k _; rfl
  | cons x h2 ih =>
    intro k nd
    obtain ⟨k2, v⟩ := x
    simp only [List.map_cons, List.nodup_cons] at nd
    simp only [alookup]
    cases hk : (k == k2) with
    | true => simp
    | false =>
      simp only [Bool.false_eq_true, if_false]
      exact ih k nd.2
  | swap x y l =>
    intro k nd
    obtain ⟨k1, v1⟩ := x
    obtain ⟨k2, v2⟩ := y
    simp only [List.map_cons, List.nodup_cons, List.mem_cons] at nd
    have hne : ¬k2 = k1 := fun he => nd.1 (Or.inl he)
    simp only [alookup]
    cases h1 : (k == k2) <;> cases h2 : (k == k1) <;> simp [h1, h2]
    exact absurd ((beq_iff_eq.mp h1).symm.trans (beq_iff_eq.mp h2)) hne
  | trans hab hbc ih1 ih2 =>
    intro k nd
    have nd2 := (hab.map Prod.fst).nodup nd
    exact (ih1 k nd).trans (ih2 k nd2)

namespace Expansion

/-- Two representations of the same recurring item: equal in every field,
with the overrides association lists permutations of each other with
distinct keys (a parsed JSON record cannot have duplicate keys). -/
def RecEquiv (r1 r2 : RecItem) : Prop :=
  r1.id = r2.id ∧ r1.title = r2.title ∧ r1.location = r2.location ∧
  r1.description = r2.description ∧ r1.rule = r2.rule ∧
  r1.startTime = r2.startTime ∧ r1.endTime = r2.endTime ∧
  r1.startOn = r2.startOn ∧ r1.endOn = r2.endOn ∧ r1.exclude = r2.exclude ∧
  r1.overrides.Perm r2.overrides ∧ (r1.overrides.map Prod.fst).Nodup

/-- Two representations of the same item. -/
def ItemEquiv : XItem → XItem → Prop
  | .single a b c d e f, .single a2 b2 c2 d2 e2 f2 =>
    a = a2 ∧ b = b2 ∧ c = c2 ∧ d = d2 ∧ e = e2 ∧ f = f2
  | .recurring r1, .recurring r2 => RecEquiv r1 r2
  | _, _ => False

/-- Two representations of the same schedule: equal term bounds and
pointwise equivalent items.  The timezone and the series registry are
deliberately unconstrained: expansion never reads them. -/
def SchedEquiv (s t : XSchedule) : Prop :=
  s.termStart = t.termStart ∧ s.termEnd = t.termEnd ∧
  List.Forall₂ ItemEquiv s.items t.items

/-- Expansion of one item depends only on the item's content, not on the
representation order of its overrides map. -/
theorem expandItem_equiv (ts te : Option String) (a b : XItem)
    (h : ItemEquiv a b) : expandItem ts te a = expandItem ts te b := by
  cases a with
  | single a1 b1 c1 d1 e1 f1 =>
    cases b with
    | single a2 b2 c2 d2 e2 f2 =>
      obtain ⟨h1, h2, h3, h4, h5, h6⟩ := h
      rw [h1, h2, h3, h4, h5, h6]
    | recurring r2 => exact h.elim
  | recurring r1 =>
    cases b with
    | single a2 b2 c2 d2 e2 f2 => exact h.elim
    | recurring r2 =>
      obtain ⟨hid, htitle, hloc, hdesc, hrule, hst, het, hso, heo, hex,
        hperm, hnd⟩ := h
      have hcand : candidateDates ts te r1 = candidateDates ts te r2 := by
        unfold candidateDates effectiveWindow
        rw [hrule, hso, heo]
      have hcanc : ∀ d, isCancelled r1 d = isCancelled r2 d := by
        intro d
        unfold isCancelled
        rw [alookup_perm hperm d hnd]
      have hmat : ∀ d, materialize r1 d = materialize r2 d := by
        intro d
        unfold materialize baseTimes
        rw [alookup_perm hperm d hnd, hrule, hst, het, hid, htitle, hloc,
          hdesc]
      show expandRecurring ts te r1 = expandRecurring ts te r2
      unfold expandRecurring
      rw [hcand]
      cases candidateDates ts te r2 with
      | error e => rfl
      | ok ds =>
        have hfil : ds.filter
            (fun d => !(r1.exclude.contains d) && !(isCancelled r1 d)) =
            ds.filter
            (fun d => !(r2.exclude.contains d) && !(isCancelled r2 d)) := by
          apply List.filter_congr
          intro d _
          rw [hex, hcanc d]
        simp only [hfil]
        have hmap : (ds.filter
            (fun d => !(r2.exclude.contains d) && !(isCancelled r2 d))).map
              (materialize r1) =
            (ds.filter
            (fun d => !(r2.exclude.contains d) && !(isCancelled r2 d))).map
              (materialize r2) :=
          List.map_congr_left (fun d _ => hmat d)
        rw [hmap]

/-- C4: expansion is deterministic — it is a pure function (the same
schedule value expands to the same output), and its output does not depend
on the one representation detail a mapping leaves open, the iteration
order of the per-date override records: schedules equal up to permutation
of each item's override entries (with the unique keys a parsed JSON record
guarantees) expand to identical, fully equal instance lists. -/
theorem claim_C4_deterministic :
    (∀ s : Expansion.XSchedule, Expansion.expand s = Expansion.expand s) ∧
    (∀ s t : Expansion.XSchedule, Expansion.SchedEquiv s t →
      Expansion.expand s = Expansion.expand t) := by
  refine ⟨fun s => rfl, ?_⟩
  intro s t hst
  obtain ⟨hts, hte, hitems⟩ := hst
  unfold Expansion.expand
  rw [hts, hte]
  revert hitems
  generalize s.items = l1
  generalize t.items = l2
  intro hitems
  induction hitems with
  | nil => rfl
  | cons hab htl ih =>
    show Expansion.expandItems t.termStart t.termEnd (_ :: _) = _
    unfold Expansion.expandItems
    rw [Expansion.expandItem_equiv t.termStart t.termEnd _ _ hab, ih]

/-- The date field of a materialized instance is its candidate date. -/
theorem materialize_date (it : RecItem) (d : String) :
    (materialize it d).date = d := by
  unfold materialize
  cases baseTimes it with
  | mk bst bet =>
    cases halo : alookup d it.overrides with
    | none => rfl
    | some o =>
      cases o with
      | cancel => rfl
      | patch st en ti lo de co tg => rfl

/-- Every instance of a successful expansion comes from one of the
schedule's items. -/
theorem expandItems_attribution (ts te : Option String) (l : List XItem)
    (out : List EventInstance) (inst : EventInstance)
    (hx : expandItems ts te l = .ok out) (hmem : inst ∈ out) :
    ∃ it ∈ l, ∃ res, expandItem ts te it = .ok res ∧ inst ∈ res := by
  induction l generalizing out with
  | nil =>
    unfold expandItems at hx
    obtain rfl : ([] : List EventInstance) = out := by
      simpa using hx
    simp at hmem
  | cons it rest ih =>
    unfold expandItems at hx
    cases ha : expandItem ts te it with
    | error e => rw [ha] at hx; simp at hx
    | ok a =>
      rw [ha] at hx
      cases hb : expandItems ts te rest with
      | error e => rw [hb] at hx; simp at hx
      | ok b =>
        rw [hb] at hx
        have hout : a ++ b = out := by simpa using hx
        rw [← hout] at hmem
        rcases List.mem_append.mp hmem with hmem2 | hmem2
        · exact ⟨it, by simp, a, ha, hmem2⟩
        · obtain ⟨it2, hit2, res, hres, hmemr⟩ := ih b hb hmem2
          exact ⟨it2, by simp [hit2], res, hres, hmemr⟩

/-- C5: no instance a successful expansion emits has a date in its
originating item's exclusion set or a cancellation override on its date:
every emitted instance comes from some item, and when that item is
recurring its exclusion and cancellation filters held for the instance's
date. -/
theorem claim_C5_exclusions (s : Expansion.XSchedule)
    (out : List Expansion.EventInstance) (inst : Expansion.EventInstance)
    (hx : Expansion.expand s = .ok out) (hmem : inst ∈ out) :
    ∃ it ∈ s.items, ∃ res,
      Expansion.expandItem s.termStart s.termEnd it = .ok res ∧ inst ∈ res ∧
      ∀ rec, it = .recurring rec →
        rec.exclude.contains inst.date = false ∧
        Expansion.isCancelled rec inst.date = false := by
  obtain ⟨it, hit, res, hres, hmemr⟩ :=
    Expansion.expandItems_attribution s.termStart s.termEnd s.items out inst
      hx hmem
  refine ⟨it, hit, res, hres, hmemr, ?_⟩
  intro rec hrec
  subst hrec
  simp only [Expansion.expandItem, Expansion.expandRecurring] at hres
  cases hcand : Expansion.candidateDates s.termStart s.termEnd rec with
  | error e => rw [hcand] at hres; simp at hres
  | ok ds =>
    rw [hcand] at hres
    have hres2 : (ds.filter (fun d => !(rec.exclude.contains d) &&
        !(Expansion.isCancelled rec d))).map (Expansion.materialize rec) =
        res := by
      simpa using hres
    rw [← hres2] at hmemr
    obtain ⟨d, hd, hinst⟩ := List.mem_map.mp hmemr
    have hdd : inst.date = d := by
      rw [← hinst]
      exact Expansion.materialize_date rec d
    have hfil := List.of_mem_filter hd
    rw [Bool.and_eq_true] at hfil
    constructor
    · rw [hdd]
      have h1 := hfil.1
      simp only [Bool.not_eq_true'] at h1
      exact h1
    · rw [hdd]
      have h2 := hfil.2
      simp only [Bool.not_eq_true'] at h2
      exact h2

/-- A daily item with one excluded date and one cancelled date. -/
def exExpItem : RecItem :=
  ⟨some "c1", some "Algo", none, none, .daily none none, "09:00:00",
    "10:00:00", none, none, ["2025-09-10"], [("2025-09-11", .cancel)]⟩

/-- A four-day schedule around that item. -/
def exExp : XSchedule :=
  ⟨"Atlantic/Canary", some "2025-09-09", some "2025-09-12", [],
    [.recurring exExpItem]⟩

/-- The two instances exExp expands to (the excluded 2025-09-10 and the
cancelled 2025-09-11 are dropped). -/
def exInst1 : EventInstance :=
  ⟨some "c1", "Algo", "2025-09-09", "2025-09-09T09:00:00",
    "2025-09-09T10:00:00", none, none⟩

/-- The second surviving instance of exExp. -/
def exInst2 : EventInstance :=
  ⟨some "c1", "Algo", "2025-09-12", "2025-09-12T09:00:00",
    "2025-09-12T10:00:00", none, none⟩

/-- C5 witness: the first emitted instance of the concrete schedule exExp
is attributed to its item and survives both filters. -/
theorem claim_C5_exclusions_witness :
    ∃ it ∈ exExp.items, ∃ res,
      expandItem exExp.termStart exExp.termEnd it = .ok res ∧
      exInst1 ∈ res ∧
      ∀ rec, it = .recurring rec →
        rec.exclude.contains exInst1.date = false ∧
        isCancelled rec exInst1.date = false :=
  claim_C5_exclusions exExp [exInst1, exInst2] exInst1 rfl (by decide)

end Expansion

end Scheduler
